import Mathlib

/-!
Verification of the core computation of `npm-version-stat`
(`src/app/components/VersionStat.vue`): semantic-version classification,
download aggregation/ranking, threshold marking, and the per-major
"minimum version" summary.

The embedding below translates the script section of `VersionStat.vue`
into Lean.  JavaScript numbers that only ever hold integer download
counts are modelled as `Nat`; the percentage / threshold computations,
which divide, are modelled as exact rationals `ℚ` (the source uses IEEE
doubles; all claims under scrutiny are independent of the rounding of
doubles at the inputs considered).  The external `semver` npm library
(used by the source for `semver.parse` and `semver.compare`) is modelled
by `semverParse` / `semverCmp` following the published semantic-versioning
grammar and precedence rules.
-/

namespace NpmVersionStat

/-- A parsed semantic version, as produced by the `semver` library:
`major.minor.patch`, a (possibly empty) list of prerelease identifiers
(numeric identifiers are numbers, the rest strings), and build metadata
(ignored by comparison). -/
structure SemVer where
  major : Nat
  minor : Nat
  patch : Nat
  prerelease : List (Nat ⊕ String)
  build : List String
deriving DecidableEq

/-- Decimal digit test used by the version grammar. -/
def isDigitCh (c : Char) : Bool := '0' ≤ c && c ≤ '9'

/-- Characters allowed in semver prerelease/build identifiers:
`[0-9A-Za-z-]`. -/
def isIdentCh (c : Char) : Bool :=
  isDigitCh c || ('a' ≤ c && c ≤ 'z') || ('A' ≤ c && c ≤ 'Z') || c == '-'

/-- Numeric value of a digit list (most significant first). -/
def digitsToNat (cs : List Char) : Nat :=
  cs.foldl (fun acc c => 10 * acc + (c.toNat - '0'.toNat)) 0

/-- Split a character list at the first occurrence of `sep`; `none` when
`sep` does not occur. -/
def splitFirst (sep : Char) : List Char → Option (List Char × List Char)
  | [] => none
  | c :: cs =>
    if c == sep then some ([], cs)
    else
      match splitFirst sep cs with
      | none => none
      | some (l, r) => some (c :: l, r)

/-- Split a character list at every occurrence of `sep` (so `n`
separators yield `n + 1` groups, empty groups included). -/
def splitAll (sep : Char) : List Char → List (List Char)
  | [] => [[]]
  | c :: cs =>
    let rest := splitAll sep cs
    if c == sep then [] :: rest
    else
      match rest with
      | [] => [[c]]
      | g :: gs => (c :: g) :: gs

/-- A semver numeric identifier for the version core: digits only, no
leading zero. -/
def parseNumCore (cs : List Char) : Option Nat :=
  if cs.isEmpty then none
  else if !cs.all isDigitCh then none
  else if cs == ['0'] || cs.head? != some '0' then some (digitsToNat cs)
  else none

/-- A semver prerelease identifier: either a numeric identifier (no
leading zero) or an alphanumeric/hyphen identifier containing at least
one non-digit. -/
def parsePreId (cs : List Char) : Option (Nat ⊕ String) :=
  if cs.isEmpty then none
  else if !cs.all isIdentCh then none
  else if cs.all isDigitCh then
    if cs == ['0'] || cs.head? != some '0' then some (Sum.inl (digitsToNat cs))
    else none
  else some (Sum.inr (String.mk cs))

/-- A semver build identifier: non-empty, `[0-9A-Za-z-]` only. -/
def isBuildId (cs : List Char) : Bool := !cs.isEmpty && cs.all isIdentCh

/-- ASCII whitespace, for the trim the `semver` library applies. -/
def isWhitespaceCh (c : Char) : Bool :=
  c == ' ' || c == '\t' || c == '\n' || c == '\r'

/-- Strip leading and trailing whitespace. -/
def trimChars (cs : List Char) : List Char :=
  ((cs.dropWhile isWhitespaceCh).reverse.dropWhile isWhitespaceCh).reverse

/-- Modelled from the spec: `semver.parse` of the external `semver` npm
library, which is not part of this repository.  Parses "standard
semantic-versioning grammar (major.minor.patch optionally followed by a
dot/hyphen-delimited prerelease identifier list and optional build
metadata)"; unparsable input yields `none` (the library returns `null`).
The library trims whitespace and accepts one optional leading `v`. -/
def semverParse (s : String) : Option SemVer := do
  let cs0 := trimChars s.toList
  let cs := if cs0.head? == some 'v' then cs0.tail else cs0
  let (body, buildGroups) ←
    match splitFirst '+' cs with
    | none => some (cs, ([] : List (List Char)))
    | some (l, r) =>
      let gs := splitAll '.' r
      if gs.all isBuildId then some (l, gs) else none
  let (core, preGroups) ←
    match splitFirst '-' body with
    | none => some (body, ([] : List (List Char)))
    | some (l, r) => some (l, splitAll '.' r)
  match splitAll '.' core with
  | [ma, mi, pa] => do
    let major ← parseNumCore ma
    let minor ← parseNumCore mi
    let patch ← parseNumCore pa
    let prerelease ← preGroups.mapM parsePreId
    pure { major, minor, patch, prerelease, build := buildGroups.map String.mk }
  | _ => none

/-- Three-way comparison from a decidable strict order. -/
def cmpOfLt {α : Type} [LT α] [DecidableRel ((· < ·) : α → α → Prop)] (a b : α) : Ordering :=
  if a < b then .lt else if b < a then .gt else .eq

/-- Comparison of single prerelease identifiers, per semver precedence:
numeric identifiers compare numerically and are lower than alphanumeric
ones; alphanumeric identifiers compare lexically. -/
def cmpIdent : Nat ⊕ String → Nat ⊕ String → Ordering
  | Sum.inl a, Sum.inl b => cmpOfLt a b
  | Sum.inl _, Sum.inr _ => .lt
  | Sum.inr _, Sum.inl _ => .gt
  | Sum.inr a, Sum.inr b => cmpOfLt a b

/-- Lexicographic comparison of prerelease identifier lists; a list that
runs out first is lower. -/
def cmpIdentList : List (Nat ⊕ String) → List (Nat ⊕ String) → Ordering
  | [], [] => .eq
  | [], _ :: _ => .lt
  | _ :: _, [] => .gt
  | a :: as, b :: bs => (cmpIdent a b).then (cmpIdentList as bs)

/-- Prerelease comparison per semver: a version without prerelease
identifiers is higher than one with them; otherwise identifier lists
compare lexicographically. -/
def cmpPre (a b : List (Nat ⊕ String)) : Ordering :=
  match a, b with
  | [], [] => .eq
  | [], _ :: _ => .gt
  | _ :: _, [] => .lt
  | _ :: _, _ :: _ => cmpIdentList a b

/-- Modelled from the spec: `semver.compare` precedence of the external
`semver` npm library — "major, then minor, then patch, then prerelease
precedence per standard semver comparison rules"; build metadata is
ignored. -/
def semverCmp (a b : SemVer) : Ordering :=
  (cmpOfLt a.major b.major).then
    ((cmpOfLt a.minor b.minor).then
      ((cmpOfLt a.patch b.patch).then (cmpPre a.prerelease b.prerelease)))

/-- Sign of an `Ordering`, as the integer a JavaScript comparator
returns. -/
def ordToInt : Ordering → Int
  | .lt => -1
  | .eq => 0
  | .gt => 1

/-- The source calls `semver.compare(a.version, b.version)` only when
both strings parse; the fallback value 0 on the remaining patterns is
unreachable at the call site (the library would throw there). -/
def semverCompareStr (a b : String) : Int :=
  match semverParse a, semverParse b with
  | some p, some q => ordToInt (semverCmp p q)
  | _, _ => 0

/-- Modelled from the spec: `String.prototype.localeCompare`, whose
exact collation is environment-dependent (Intl), is read by the spec as
"plain lexical string order". -/
def localeCompare (a b : String) : Int := ordToInt (cmpOfLt a b)

/-- Substring test, as JavaScript `String.prototype.includes`
(case-sensitive, contiguous). -/
def strIncludes (s pat : String) : Bool := hasSublist s.toList pat.toList
where
  /-- `hasSublist l pat` holds when `pat` occurs contiguously in `l`. -/
  hasSublist : List Char → List Char → Bool
    | l, pat =>
      match l with
      | [] => pat.isEmpty
      | _ :: xs => pat.isPrefixOf l || hasSublist xs pat

/-- The record of `state.versionsData` built by `fetchPackageData`:
per-version weekly download data.  `parsedVersion` caches
`semverParse version` exactly as the source stores `semver.parse(version)`
in the record. -/
structure VersionData where
  version : String
  downloads : Nat
  isLatest : Bool
  tag : String
  publishedDate : String
  parsedVersion : Option SemVer
deriving DecidableEq

/-- The annotated entry produced by the `formattedVersionsData` computed
property. -/
structure FormattedVersionData where
  version : String
  downloads : Nat
  isLatest : Bool
  tag : String
  publishedDate : String
  parsedVersion : Option SemVer
  rank : Nat
  percentage : ℚ
  cumulativeDownloads : Nat
  cumulativePercentage : ℚ
  isWithin90Threshold : Bool
deriving DecidableEq

/-- `parseVersionTag` from `VersionStat.vue` (lines 232-265): derive a
release tag from a version string.  Unparsable versions are `"invalid"`;
versions without prerelease identifiers are `"stable"`; otherwise the
first prerelease identifier is matched (case-sensitive substring, first
match wins) against alpha, beta, rc, canary, next, dev, snapshot, with
fallback `"prerelease"`; a numeric first identifier is `"prerelease"`. -/
def parseVersionTag (version : String) : String :=
  match semverParse version with
  | none => "invalid"
  | some parsed =>
    match parsed.prerelease with
    | [] => "stable"
    | pre :: _ =>
      match pre with
      | Sum.inl _ => "prerelease"
      | Sum.inr p =>
        if strIncludes p "alpha" then "alpha"
        else if strIncludes p "beta" then "beta"
        else if strIncludes p "rc" then "rc"
        else if strIncludes p "canary" then "canary"
        else if strIncludes p "next" then "next"
        else if strIncludes p "dev" then "dev"
        else if strIncludes p "snapshot" then "snapshot"
        else "prerelease"

/-- `getMajorVersion` from `VersionStat.vue` (lines 267-277): the
major-line label `"v" + major`, or `"unknown"` for unparsable input. -/
def getMajorVersion (version : String) : String :=
  match semverParse version with
  | none => "unknown"
  | some parsed => "v" ++ toString parsed.major

/-- The filtering stage of `formattedVersionsData` (lines 90-103): when
the tag selection is non-empty keep only entries whose tag is selected,
and when the major-version selection is non-empty keep only entries
whose major line is selected. -/
def filteredData (versionsData : List VersionData)
    (selectedTags selectedMajorVersions : List String) : List VersionData :=
  let afterTags :=
    if selectedTags.length > 0 then
      versionsData.filter (fun item => selectedTags.contains item.tag)
    else versionsData
  if selectedMajorVersions.length > 0 then
    afterTags.filter (fun item => selectedMajorVersions.contains (getMajorVersion item.version))
  else afterTags

/-- The marking pass of `formattedVersionsData` (lines 110-138):
`cum` and `found` are the closure variables `cumulativeDownloads` and
`foundThresholdBoundary`, `idx` the map index.  Each entry is annotated
with rank, share percentage, cumulative downloads, cumulative share, and
the threshold flag: true while the cumulative count stays at or below
`threshold90`, and also for the first entry exceeding it while the
boundary flag is still unset. -/
def formatScan (totalDownloads : Nat) (threshold90 : ℚ) :
    Nat → Bool → Nat → List VersionData → List FormattedVersionData
  | _, _, _, [] => []
  | cum, found, idx, item :: rest =>
    let cum1 := cum + item.downloads
    let percentage : ℚ :=
      if totalDownloads > 0 then ((item.downloads : ℚ) / (totalDownloads : ℚ)) * 100 else 0
    let cumulativePercentage : ℚ :=
      if totalDownloads > 0 then ((cum1 : ℚ) / (totalDownloads : ℚ)) * 100 else 0
    let isWithin90Threshold : Bool :=
      if (cum1 : ℚ) ≤ threshold90 then true
      else if !found then true
      else false
    let found1 : Bool :=
      if (cum1 : ℚ) ≤ threshold90 then found else true
    { version := item.version, downloads := item.downloads, isLatest := item.isLatest,
      tag := item.tag, publishedDate := item.publishedDate,
      parsedVersion := item.parsedVersion,
      rank := idx + 1, percentage, cumulativeDownloads := cum1,
      cumulativePercentage, isWithin90Threshold } ::
      formatScan totalDownloads threshold90 cum1 found1 (idx + 1) rest

/-- The `formattedVersionsData` computed property (lines 89-139): filter,
total the downloads, fix the absolute threshold
`totalDownloads * (threshold / 100)`, then run the marking pass with
cumulative count 0 and the boundary flag unset. -/
def formattedVersionsData (versionsData : List VersionData)
    (selectedTags selectedMajorVersions : List String) (threshold : Nat) :
    List FormattedVersionData :=
  let filtered := filteredData versionsData selectedTags selectedMajorVersions
  let totalDownloads : Nat := (filtered.map (·.downloads)).sum
  let threshold90 : ℚ := (totalDownloads : ℚ) * ((threshold : ℚ) / 100)
  formatScan totalDownloads threshold90 0 false 0 filtered

/-- Insertion step of the model of `Array.prototype.sort`: the new
element goes before the first element the comparator places strictly
after it, hence after every element comparing equal — the stable
placement mandated by ECMAScript. -/
def jsInsert {α : Type} (c : α → α → Int) (x : α) : List α → List α
  | [] => [x]
  | y :: ys => if c x y < 0 then x :: y :: ys else y :: jsInsert c x ys

/-- Model of JavaScript `Array.prototype.sort(comparator)`: a stable
sort by the comparator sign.  For a consistent comparator the stable
sorted permutation is unique, so any stable sort is a faithful model. -/
def jsSort {α : Type} (c : α → α → Int) (l : List α) : List α :=
  l.foldl (fun acc x => jsInsert c x acc) []

/-- The sort applied in `fetchPackageData` (line 496):
`.sort((a, b) => b.downloads - a.downloads)`, downloads descending. -/
def sortVersionsData (l : List VersionData) : List VersionData :=
  jsSort (fun a b => (b.downloads : Int) - (a.downloads : Int)) l

/-- One entry of the per-major summary built by
`minVersionFor90Threshold`. -/
structure MinVersionItem where
  major : String
  minVersion : Option FormattedVersionData
  totalVersionsInMajor : Nat
deriving DecidableEq

/-- The value of the `minVersionFor90Threshold` computed property when
some entry is within the threshold. -/
structure ThresholdSummary where
  items : List MinVersionItem
  totalVersions : Nat
  totalDownloads : Nat
deriving DecidableEq

/-- Append `x` to the group keyed `k`, creating the group at the end
when absent — the behaviour of the source `reduce` into a record, whose
`Object.entries` ordering for non-index string keys is insertion
order. -/
def insertGroup {α : Type} : List (String × List α) → String → α → List (String × List α)
  | [], k, x => [(k, [x])]
  | (k1, xs) :: rest, k, x =>
    if k1 = k then (k1, xs ++ [x]) :: rest else (k1, xs) :: insertGroup rest k x

/-- Grouping of the within-threshold entries by major line
(`versionsByMajor`, lines 303-310). -/
def groupByMajor (items : List FormattedVersionData) : List (String × List FormattedVersionData) :=
  items.foldl (fun acc item => insertGroup acc (getMajorVersion item.version) item) []

/-- The version comparator of lines 314-320: semver comparison of the
version strings when both records carry a parsed version, otherwise
`localeCompare` of the strings. -/
def compareVersionItems (a b : FormattedVersionData) : Int :=
  match a.parsedVersion, b.parsedVersion with
  | some _, some _ => semverCompareStr a.version b.version
  | _, _ => localeCompare a.version b.version

/-- `Number.parseInt(major.replace('v', ''), 10)` of lines 328-329:
`replace` with a string pattern removes only the first `v`, and
`parseInt` reads the leading digits, `NaN` (here `none`) when there are
none. -/
def parseIntMajor (s : String) : Option Nat :=
  let cs :=
    match splitFirst 'v' s.toList with
    | none => s.toList
    | some (l, r) => l ++ r
  let digits := cs.takeWhile isDigitCh
  if digits.isEmpty then none else some (digitsToNat digits)

/-- The major-descending comparator of lines 326-331,
`(a, b) => numB - numA`.  When a major does not parse the source
comparator yields `NaN`, which V8 treats like 0; the claims about group
ordering are stated only for inputs where every major parses, so the
modelled value is never load-bearing. -/
def majorDescCmp (a b : MinVersionItem) : Int :=
  match parseIntMajor a.major, parseIntMajor b.major with
  | some na, some nb => (nb : Int) - (na : Int)
  | _, _ => 0

/-- The `minVersionFor90Threshold` computed property (lines 296-338):
`null` when no entry is within the threshold; otherwise group the
within-threshold entries by major line, pick the first element of each
group sorted by `compareVersionItems`, and order the groups by major
number descending. -/
def minVersionFor90Threshold (versionsData : List VersionData)
    (selectedTags selectedMajorVersions : List String) (threshold : Nat) :
    Option ThresholdSummary :=
  let within90Items :=
    (formattedVersionsData versionsData selectedTags selectedMajorVersions threshold).filter
      (fun item => item.isWithin90Threshold)
  if within90Items.isEmpty then none
  else
    let versionsByMajor := groupByMajor within90Items
    let minVersionsByMajor :=
      jsSort majorDescCmp
        (versionsByMajor.map (fun g =>
          { major := g.1,
            minVersion := (jsSort compareVersionItems g.2).head?,
            totalVersionsInMajor := g.2.length }))
    some
      { items := minVersionsByMajor,
        totalVersions := within90Items.length,
        totalDownloads := (within90Items.map (·.downloads)).sum }

/-- The ordering the spec prescribes for selecting the per-major minimum
version: full semver precedence when both versions parse, plain lexical
string order among unparsable versions, and every parsable version
before every unparsable one. -/
def specVersionLe (a b : FormattedVersionData) : Bool :=
  match semverParse a.version, semverParse b.version with
  | some p, some q => semverCmp p q != .gt
  | some _, none => true
  | none, some _ => false
  | none, none => cmpOfLt a.version b.version != .gt

/-! ### Observations on a formatted list

The claims are phrased through total accessors on the produced list:
field of the `i`-th entry (with an explicit bound hypothesis in every
claim, so the `getD` default is never reached), the total downloads of
the list, and the absolute threshold recomputed from it. -/

/-- The `isWithin90Threshold` flag of the `i`-th entry. -/
def withinAt (out : List FormattedVersionData) (i : Nat) : Bool :=
  (out.map (·.isWithin90Threshold)).getD i false

/-- The `cumulativeDownloads` field of the `i`-th entry. -/
def cumDlAt (out : List FormattedVersionData) (i : Nat) : Nat :=
  (out.map (·.cumulativeDownloads)).getD i 0

/-- The `rank` field of the `i`-th entry. -/
def rankAt (out : List FormattedVersionData) (i : Nat) : Nat :=
  (out.map (·.rank)).getD i 0

/-- The `downloads` field of the `i`-th entry. -/
def dlAt (out : List FormattedVersionData) (i : Nat) : Nat :=
  (out.map (·.downloads)).getD i 0

/-- The `percentage` field of the `i`-th entry. -/
def pctAt (out : List FormattedVersionData) (i : Nat) : ℚ :=
  (out.map (·.percentage)).getD i 0

/-- The `cumulativePercentage` field of the `i`-th entry. -/
def cumPctAt (out : List FormattedVersionData) (i : Nat) : ℚ :=
  (out.map (·.cumulativePercentage)).getD i 0

/-- Total downloads of a formatted list (equal, by construction, to the
`totalDownloads` of the filtered set it was built from). -/
def totalOf (out : List FormattedVersionData) : Nat :=
  (out.map (·.downloads)).sum

/-- The absolute threshold `totalDownloads * (threshold / 100)`. -/
def threshOf (out : List FormattedVersionData) (threshold : Nat) : ℚ :=
  (totalOf out : ℚ) * ((threshold : ℚ) / 100)

/-! ### The marking-pass formula

`formatScan` is characterised entry by entry: the `i`-th output entry
copies the `i`-th input record, gets rank `idx + i + 1`, cumulative
downloads `cum +` (prefix sum), and a flag that is true exactly when
the cumulative count is at or below the threshold or no earlier entry
(nor the carried-in flag) has exceeded it. -/

/-- Downloads of the first `k` records. -/
def sumTake (l : List VersionData) (k : Nat) : Nat :=
  ((l.take k).map (·.downloads)).sum

/-- Closed form of the threshold flag computed by `formatScan` for the
`i`-th entry of `l`, entering with cumulative count `cum` and boundary
flag `found`. -/
def scanWithin (th : ℚ) (cum : Nat) (found : Bool) (l : List VersionData) (i : Nat) : Bool :=
  decide (((cum + sumTake l (i + 1) : Nat) : ℚ) ≤ th) ||
    (!found &&
      !((List.range i).any fun j => decide (th < ((cum + sumTake l (j + 1) : Nat) : ℚ))))

theorem sumTake_zero (l : List VersionData) : sumTake l 0 = 0 := rfl

theorem sumTake_succ_cons (x : VersionData) (l : List VersionData) (k : Nat) :
    sumTake (x :: l) (k + 1) = x.downloads + sumTake l k := by
  simp [sumTake]

theorem sumTake_le_sumTake (l : List VersionData) {m n : Nat} (h : m ≤ n) :
    sumTake l m ≤ sumTake l n := by
  have hn : n = m + (n - m) := by omega
  rw [hn]
  unfold sumTake
  rw [List.take_add, List.map_append, List.sum_append]
  exact Nat.le_add_right _ _

theorem sumTake_length (l : List VersionData) :
    sumTake l l.length = (l.map (·.downloads)).sum := by
  simp [sumTake]

theorem sumTake_le_total (l : List VersionData) (k : Nat) :
    sumTake l k ≤ (l.map (·.downloads)).sum := by
  rcases le_or_lt k l.length with h | h
  · rw [← sumTake_length]; exact sumTake_le_sumTake l h
  · unfold sumTake; rw [List.take_of_length_le (le_of_lt h)]

theorem scanWithin_step (th : ℚ) (cum : Nat) (found : Bool) (item : VersionData)
    (rest : List VersionData) (i : Nat) :
    scanWithin th (cum + item.downloads)
      (if ((cum + item.downloads : Nat) : ℚ) ≤ th then found else true) rest i =
    scanWithin th cum found (item :: rest) (i + 1) := by
  have hsum : ∀ k, cum + sumTake (item :: rest) (k + 1) = cum + item.downloads + sumTake rest k := by
    intro k; rw [sumTake_succ_cons]; omega
  have hrange : List.range (i + 1) = 0 :: (List.range i).map Nat.succ :=
    List.range_succ_eq_map i
  have hfun : ((fun j => decide (th < ((cum + sumTake (item :: rest) (j + 1) : Nat) : ℚ))) ∘
      Nat.succ) =
      fun j => decide (th < ((cum + item.downloads + sumTake rest (j + 1) : Nat) : ℚ)) := by
    funext j
    simp only [Function.comp_apply]
    rw [hsum (j + 1)]
  have hany : (List.range (i + 1)).any
      (fun j => decide (th < ((cum + sumTake (item :: rest) (j + 1) : Nat) : ℚ))) =
      (decide (th < ((cum + item.downloads : Nat) : ℚ)) ||
        (List.range i).any
          (fun j => decide (th < ((cum + item.downloads + sumTake rest (j + 1) : Nat) : ℚ)))) := by
    rw [hrange, List.any_cons, List.any_map, hfun]
    have h0 : cum + sumTake (item :: rest) (0 + 1) = cum + item.downloads := by
      rw [hsum 0, sumTake_zero]
      omega
    rw [h0]
  unfold scanWithin
  rw [hany, hsum (i + 1)]
  by_cases h : ((cum + item.downloads : Nat) : ℚ) ≤ th
  · rw [if_pos h, decide_eq_false (not_lt.mpr h)]
    rw [Bool.false_or]
  · rw [if_neg h, decide_eq_true (not_le.mp h)]
    simp only [Bool.not_true, Bool.false_and, Bool.true_or, Bool.and_false, Bool.or_false]

theorem formatScan_length (t : Nat) (th : ℚ) :
    ∀ (l : List VersionData) (cum idx : Nat) (found : Bool),
      (formatScan t th cum found idx l).length = l.length
  | [], _, _, _ => rfl
  | _ :: rest, cum, idx, found => by
    simp only [formatScan, List.length_cons]
    rw [formatScan_length t th rest]

theorem formatScan_get (t : Nat) (th : ℚ) :
    ∀ (l : List VersionData) (cum idx : Nat) (found : Bool) (i : Nat)
      (h1 : i < (formatScan t th cum found idx l).length) (h2 : i < l.length),
      (formatScan t th cum found idx l).get ⟨i, h1⟩ =
        { version := (l.get ⟨i, h2⟩).version,
          downloads := (l.get ⟨i, h2⟩).downloads,
          isLatest := (l.get ⟨i, h2⟩).isLatest,
          tag := (l.get ⟨i, h2⟩).tag,
          publishedDate := (l.get ⟨i, h2⟩).publishedDate,
          parsedVersion := (l.get ⟨i, h2⟩).parsedVersion,
          rank := idx + i + 1,
          percentage :=
            if t > 0 then (((l.get ⟨i, h2⟩).downloads : ℚ) / (t : ℚ)) * 100 else 0,
          cumulativeDownloads := cum + sumTake l (i + 1),
          cumulativePercentage :=
            if t > 0 then (((cum + sumTake l (i + 1) : Nat) : ℚ) / (t : ℚ)) * 100 else 0,
          isWithin90Threshold := scanWithin th cum found l i }
  | [], _, _, _, i, _, h2 => absurd h2 (by simp)
  | item :: rest, cum, idx, found, 0, h1, h2 => by
    have hsum : sumTake (item :: rest) 1 = item.downloads := by simp [sumTake]
    have hwithin : scanWithin th cum found (item :: rest) 0 =
        (if ((cum + item.downloads : Nat) : ℚ) ≤ th then true
         else if !found then true else false) := by
      unfold scanWithin
      simp only [Nat.zero_add, hsum, List.range_zero, List.any_nil, Bool.not_false,
        Bool.and_true]
      by_cases h : ((cum + item.downloads : Nat) : ℚ) ≤ th
      · rw [if_pos h, decide_eq_true h, Bool.true_or]
      · rw [if_neg h, decide_eq_false h, Bool.false_or]
        cases found <;> rfl
    simp only [formatScan, List.get_cons_zero, hwithin, Nat.zero_add, Nat.add_zero, hsum]
    rfl
  | item :: rest, cum, idx, found, i + 1, h1, h2 => by
    have h1r : i < (formatScan t th (cum + item.downloads)
        (if ((cum + item.downloads : Nat) : ℚ) ≤ th then found else true) (idx + 1) rest).length := by
      rw [formatScan_length]
      simpa using h2
    have h2r : i < rest.length := by simpa using h2
    have step := formatScan_get t th rest (cum + item.downloads)
      (idx + 1) (if ((cum + item.downloads : Nat) : ℚ) ≤ th then found else true) i h1r h2r
    simp only [formatScan, List.get_cons_succ]
    rw [step]
    have hsum : cum + item.downloads + sumTake rest (i + 1) =
        cum + sumTake (item :: rest) (i + 1 + 1) := by
      rw [sumTake_succ_cons]; omega
    have hrank : idx + 1 + i + 1 = idx + (i + 1) + 1 := by omega
    have hw := scanWithin_step th cum found item rest i
    simp only [hsum, hw, hrank]

/-! ### The pipeline view

`formattedVersionsData` specialised through the formula above: entry
fields in terms of the filtered list, its prefix sums, and the absolute
threshold. -/

/-- The total downloads of the filtered set (the `totalDownloads` local
of `formattedVersionsData`). -/
def totalFiltered (d : List VersionData) (tg mj : List String) : Nat :=
  ((filteredData d tg mj).map (·.downloads)).sum

/-- The absolute threshold (the `threshold90` local of
`formattedVersionsData`). -/
def threshold90Of (d : List VersionData) (tg mj : List String) (p : Nat) : ℚ :=
  (totalFiltered d tg mj : ℚ) * ((p : ℚ) / 100)

theorem fvd_length (d : List VersionData) (tg mj : List String) (p : Nat) :
    (formattedVersionsData d tg mj p).length = (filteredData d tg mj).length :=
  formatScan_length _ _ _ _ _ _

theorem fvd_get (d : List VersionData) (tg mj : List String) (p i : Nat)
    (h1 : i < (formattedVersionsData d tg mj p).length)
    (h2 : i < (filteredData d tg mj).length) :
    (formattedVersionsData d tg mj p).get ⟨i, h1⟩ =
      { version := ((filteredData d tg mj).get ⟨i, h2⟩).version,
        downloads := ((filteredData d tg mj).get ⟨i, h2⟩).downloads,
        isLatest := ((filteredData d tg mj).get ⟨i, h2⟩).isLatest,
        tag := ((filteredData d tg mj).get ⟨i, h2⟩).tag,
        publishedDate := ((filteredData d tg mj).get ⟨i, h2⟩).publishedDate,
        parsedVersion := ((filteredData d tg mj).get ⟨i, h2⟩).parsedVersion,
        rank := 0 + i + 1,
        percentage :=
          if totalFiltered d tg mj > 0 then
            ((((filteredData d tg mj).get ⟨i, h2⟩).downloads : ℚ) /
              (totalFiltered d tg mj : ℚ)) * 100
          else 0,
        cumulativeDownloads := 0 + sumTake (filteredData d tg mj) (i + 1),
        cumulativePercentage :=
          if totalFiltered d tg mj > 0 then
            (((0 + sumTake (filteredData d tg mj) (i + 1) : Nat) : ℚ) /
              (totalFiltered d tg mj : ℚ)) * 100
          else 0,
        isWithin90Threshold :=
          scanWithin (threshold90Of d tg mj p) 0 false (filteredData d tg mj) i } :=
  formatScan_get (totalFiltered d tg mj) (threshold90Of d tg mj p)
    (filteredData d tg mj) 0 0 false i h1 h2

theorem getD_map_of_lt {α β : Type} (f : α → β)
    (out : List α) (i : Nat) (dflt : β) (h : i < out.length) :
    (out.map f).getD i dflt = f (out.get ⟨i, h⟩) := by
  rw [List.getD_eq_getElem _ _ (by simpa using h)]
  simp

theorem rankAt_fvd (d : List VersionData) (tg mj : List String) (p i : Nat)
    (hi : i < (filteredData d tg mj).length) :
    rankAt (formattedVersionsData d tg mj p) i = i + 1 := by
  have h1 : i < (formattedVersionsData d tg mj p).length := by rw [fvd_length]; exact hi
  unfold rankAt
  rw [getD_map_of_lt _ _ _ _ h1, fvd_get d tg mj p i h1 hi]
  simp

theorem dlAt_fvd (d : List VersionData) (tg mj : List String) (p i : Nat)
    (hi : i < (filteredData d tg mj).length) :
    dlAt (formattedVersionsData d tg mj p) i =
      ((filteredData d tg mj).get ⟨i, hi⟩).downloads := by
  have h1 : i < (formattedVersionsData d tg mj p).length := by rw [fvd_length]; exact hi
  unfold dlAt
  rw [getD_map_of_lt _ _ _ _ h1, fvd_get d tg mj p i h1 hi]

theorem cumDlAt_fvd (d : List VersionData) (tg mj : List String) (p i : Nat)
    (hi : i < (filteredData d tg mj).length) :
    cumDlAt (formattedVersionsData d tg mj p) i = sumTake (filteredData d tg mj) (i + 1) := by
  have h1 : i < (formattedVersionsData d tg mj p).length := by rw [fvd_length]; exact hi
  unfold cumDlAt
  rw [getD_map_of_lt _ _ _ _ h1, fvd_get d tg mj p i h1 hi]
  simp

theorem pctAt_fvd (d : List VersionData) (tg mj : List String) (p i : Nat)
    (hi : i < (filteredData d tg mj).length) :
    pctAt (formattedVersionsData d tg mj p) i =
      (if totalFiltered d tg mj > 0 then
        ((((filteredData d tg mj).get ⟨i, hi⟩).downloads : ℚ) /
          (totalFiltered d tg mj : ℚ)) * 100
      else 0) := by
  have h1 : i < (formattedVersionsData d tg mj p).length := by rw [fvd_length]; exact hi
  unfold pctAt
  rw [getD_map_of_lt _ _ _ _ h1, fvd_get d tg mj p i h1 hi]

theorem cumPctAt_fvd (d : List VersionData) (tg mj : List String) (p i : Nat)
    (hi : i < (filteredData d tg mj).length) :
    cumPctAt (formattedVersionsData d tg mj p) i =
      (if totalFiltered d tg mj > 0 then
        ((sumTake (filteredData d tg mj) (i + 1) : ℚ) /
          (totalFiltered d tg mj : ℚ)) * 100
      else 0) := by
  have h1 : i < (formattedVersionsData d tg mj p).length := by rw [fvd_length]; exact hi
  unfold cumPctAt
  rw [getD_map_of_lt _ _ _ _ h1, fvd_get d tg mj p i h1 hi]
  simp

theorem withinAt_fvd (d : List VersionData) (tg mj : List String) (p i : Nat)
    (hi : i < (filteredData d tg mj).length) :
    withinAt (formattedVersionsData d tg mj p) i =
      scanWithin (threshold90Of d tg mj p) 0 false (filteredData d tg mj) i := by
  have h1 : i < (formattedVersionsData d tg mj p).length := by rw [fvd_length]; exact hi
  unfold withinAt
  rw [getD_map_of_lt _ _ _ _ h1, fvd_get d tg mj p i h1 hi]

theorem fvd_map_downloads (d : List VersionData) (tg mj : List String) (p : Nat) :
    (formattedVersionsData d tg mj p).map (·.downloads) =
      (filteredData d tg mj).map (·.downloads) := by
  apply List.ext_get
  · simp [fvd_length]
  · intro i hi1 hi2
    have hiF : i < (filteredData d tg mj).length := by simpa using hi2
    have hi0 : i < (formattedVersionsData d tg mj p).length := by rw [fvd_length]; exact hiF
    simp only [List.get_eq_getElem, List.getElem_map]
    have := fvd_get d tg mj p i hi0 hiF
    simp only [List.get_eq_getElem] at this
    rw [this]

theorem totalOf_fvd (d : List VersionData) (tg mj : List String) (p : Nat) :
    totalOf (formattedVersionsData d tg mj p) = totalFiltered d tg mj := by
  unfold totalOf totalFiltered
  rw [fvd_map_downloads]

theorem threshOf_fvd (d : List VersionData) (tg mj : List String) (p : Nat) :
    threshOf (formattedVersionsData d tg mj p) p = threshold90Of d tg mj p := by
  unfold threshOf threshold90Of
  rw [totalOf_fvd]

theorem withinAt_iff (d : List VersionData) (tg mj : List String) (p i : Nat)
    (hi : i < (filteredData d tg mj).length) :
    withinAt (formattedVersionsData d tg mj p) i = true ↔
      ((sumTake (filteredData d tg mj) (i + 1) : ℚ) ≤ threshold90Of d tg mj p ∨
        ∀ j, j < i → (sumTake (filteredData d tg mj) (j + 1) : ℚ) ≤ threshold90Of d tg mj p) := by
  rw [withinAt_fvd d tg mj p i hi]
  unfold scanWithin
  simp only [Nat.zero_add, Bool.not_false, Bool.true_and, Bool.or_eq_true, decide_eq_true_eq,
    Bool.not_eq_true', List.any_eq_false, List.mem_range, decide_eq_false_iff_not, not_lt]

theorem cumDlAt_mono (d : List VersionData) (tg mj : List String) (p : Nat)
    {i j : Nat} (hij : i ≤ j) (hj : j < (filteredData d tg mj).length) :
    cumDlAt (formattedVersionsData d tg mj p) i ≤
      cumDlAt (formattedVersionsData d tg mj p) j := by
  have hi : i < (filteredData d tg mj).length := lt_of_le_of_lt hij hj
  rw [cumDlAt_fvd d tg mj p i hi, cumDlAt_fvd d tg mj p j hj]
  exact sumTake_le_sumTake _ (by omega)

/-! ### Concrete inputs used by witnesses and counterexamples -/

/-- The spec scenario records: 3.0.0 with 700 weekly downloads, 2.9.0
with 200, 2.8.0 with 100 (already in download-descending order, as
`fetchPackageData` delivers them). -/
def scenarioRecords : List VersionData :=
  [{ version := "3.0.0", downloads := 700, isLatest := true, tag := "stable",
     publishedDate := "", parsedVersion := semverParse "3.0.0" },
   { version := "2.9.0", downloads := 200, isLatest := false, tag := "stable",
     publishedDate := "", parsedVersion := semverParse "2.9.0" },
   { version := "2.8.0", downloads := 100, isLatest := false, tag := "stable",
     publishedDate := "", parsedVersion := semverParse "2.8.0" }]

/-- Two records with zero downloads each: the filtered set is non-empty
while `totalDownloads = 0`. -/
def zeroRecords : List VersionData :=
  [{ version := "1.0.0", downloads := 0, isLatest := false, tag := "stable",
     publishedDate := "", parsedVersion := semverParse "1.0.0" },
   { version := "1.1.0", downloads := 0, isLatest := true, tag := "stable",
     publishedDate := "", parsedVersion := semverParse "1.1.0" }]

/-! ### Claim theorems: the threshold-marking family -/

/-- C1: for every ranked entry list and every threshold, the marking
pass sets `withinThreshold = true` for every entry whose cumulative
downloads are at or below `thresholdAbsolute = totalDownloads *
thresholdPercent / 100`; the first entry exceeding it while no earlier
entry has exceeded it (the boundary flag still false) is also marked
true; and every entry coming after an exceeding entry is marked
false. -/
theorem c1_threshold_marking (data : List VersionData) (tags majors : List String)
    (p : Nat) (out : List FormattedVersionData)
    (hout : out = formattedVersionsData data tags majors p)
    (i : Nat) (hi : i < out.length) :
    ((cumDlAt out i : ℚ) ≤ threshOf out p → withinAt out i = true) ∧
    (threshOf out p < (cumDlAt out i : ℚ) →
      (∀ j, j < i → (cumDlAt out j : ℚ) ≤ threshOf out p) → withinAt out i = true) ∧
    ((∃ j, j < i ∧ threshOf out p < (cumDlAt out j : ℚ)) → withinAt out i = false) := by
  subst hout
  have hiF : i < (filteredData data tags majors).length := by
    rw [fvd_length] at hi; exact hi
  refine ⟨?_, ?_, ?_⟩
  · intro h
    rw [threshOf_fvd, cumDlAt_fvd data tags majors p i hiF] at h
    exact (withinAt_iff data tags majors p i hiF).mpr (Or.inl h)
  · intro _ hall
    refine (withinAt_iff data tags majors p i hiF).mpr (Or.inr ?_)
    intro j hj
    have hjF : j < (filteredData data tags majors).length := lt_trans hj hiF
    have hc := hall j hj
    rwa [threshOf_fvd, cumDlAt_fvd data tags majors p j hjF] at hc
  · rintro ⟨j, hji, hj⟩
    rw [threshOf_fvd, cumDlAt_fvd data tags majors p j (lt_trans hji hiF)] at hj
    have hle : sumTake (filteredData data tags majors) (j + 1) ≤
        sumTake (filteredData data tags majors) (i + 1) :=
      sumTake_le_sumTake _ (by omega)
    have hgt : threshold90Of data tags majors p <
        (sumTake (filteredData data tags majors) (i + 1) : ℚ) :=
      lt_of_lt_of_le hj (by exact_mod_cast hle)
    cases hw : withinAt (formattedVersionsData data tags majors p) i with
    | false => rfl
    | true =>
      rcases (withinAt_iff data tags majors p i hiF).mp hw with h | h
      · exact absurd h (not_le.mpr hgt)
      · exact absurd (h j hji) (not_le.mpr hj)

/-- Witness for C1 at a concrete input: with threshold 50 the second
entry (cumulative 900 over a 500 threshold, after the boundary entry at
rank 1) is excluded, and with threshold 90 the second entry (cumulative
900 ≤ 900) is included. -/
theorem c1_threshold_marking_witness :
    withinAt (formattedVersionsData scenarioRecords [] [] 50) 1 = false ∧
    withinAt (formattedVersionsData scenarioRecords [] [] 90) 1 = true :=
  ⟨(c1_threshold_marking scenarioRecords [] [] 50 _ rfl 1 (by decide)).2.2
      ⟨0, Nat.zero_lt_one, of_decide_eq_true (by with_unfolding_all rfl)⟩,
   (c1_threshold_marking scenarioRecords [] [] 90 _ rfl 1 (by decide)).1
     (of_decide_eq_true (by with_unfolding_all rfl))⟩

/-- C2 counterexample: on the spec scenario (700/200/100, threshold 90)
the code produces `withinThreshold = [true, true, true]`, not
`[true, true, false]` as claimed: 2.9.0 lands exactly on the 90%
threshold and is accepted by the accumulation branch, which does not set
the boundary flag, so 2.8.0 — the first entry to strictly exceed the
threshold — is also marked as the boundary entry. -/
theorem c2_counterexample :
    (formattedVersionsData scenarioRecords [] [] 90).map (·.version) =
      ["3.0.0", "2.9.0", "2.8.0"] ∧
    (formattedVersionsData scenarioRecords [] [] 90).map (·.cumulativePercentage) =
      [70, 90, 100] ∧
    (formattedVersionsData scenarioRecords [] [] 90).map (·.isWithin90Threshold) =
      [true, true, true] ∧
    (formattedVersionsData scenarioRecords [] [] 90).map (·.isWithin90Threshold) ≠
      [true, true, false] :=
  of_decide_eq_true (by with_unfolding_all rfl)

/-- C2 amended: for the records [3.0.0/700, 2.9.0/200, 2.8.0/100] with
threshold 90 and no filters, the ranked order is [3.0.0, 2.9.0, 2.8.0]
with ranks 1..3, the cumulative share percentages are [70, 90, 100], and
the `withinThreshold` flags are [true, true, true]: 2.9.0 reaches the
threshold exactly (included by accumulation, leaving the boundary flag
unset) and 2.8.0 is additionally included as the boundary entry. -/
theorem c2_amended_scenario :
    (formattedVersionsData scenarioRecords [] [] 90).map (·.version) =
      ["3.0.0", "2.9.0", "2.8.0"] ∧
    (formattedVersionsData scenarioRecords [] [] 90).map (·.rank) = [1, 2, 3] ∧
    (formattedVersionsData scenarioRecords [] [] 90).map (·.cumulativePercentage) =
      [70, 90, 100] ∧
    (formattedVersionsData scenarioRecords [] [] 90).map (·.isWithin90Threshold) =
      [true, true, true] :=
  of_decide_eq_true (by with_unfolding_all rfl)

/-- C3: the produced list has rank exactly `i + 1` at position `i`
(strictly increasing 1..N), cumulative downloads equal to the prefix sum
of the downloads in rank order (hence non-decreasing), and the last
entry's cumulative downloads equal the total downloads. -/
theorem c3_rank_and_prefix_sums (data : List VersionData) (tags majors : List String)
    (p : Nat) (out : List FormattedVersionData)
    (hout : out = formattedVersionsData data tags majors p) :
    (∀ i, i < out.length → rankAt out i = i + 1) ∧
    (∀ i, i < out.length → cumDlAt out i = ((out.map (·.downloads)).take (i + 1)).sum) ∧
    (∀ i, i + 1 < out.length → cumDlAt out i ≤ cumDlAt out (i + 1)) ∧
    (out ≠ [] → cumDlAt out (out.length - 1) = totalOf out) := by
  subst hout
  refine ⟨?_, ?_, ?_, ?_⟩
  · intro i hi
    exact rankAt_fvd data tags majors p i (by rwa [fvd_length] at hi)
  · intro i hi
    have hiF : i < (filteredData data tags majors).length := by rwa [fvd_length] at hi
    rw [cumDlAt_fvd data tags majors p i hiF, fvd_map_downloads]
    unfold sumTake
    rw [List.map_take]
  · intro i hi
    have hjF : i + 1 < (filteredData data tags majors).length := by rwa [fvd_length] at hi
    exact cumDlAt_mono data tags majors p (Nat.le_succ i) hjF
  · intro hne
    have hpos : 0 < (formattedVersionsData data tags majors p).length :=
      List.length_pos.mpr hne
    have hiF : (formattedVersionsData data tags majors p).length - 1 <
        (filteredData data tags majors).length := by
      rw [fvd_length] at hpos ⊢; omega
    rw [cumDlAt_fvd data tags majors p _ hiF, totalOf_fvd]
    have hidx : (formattedVersionsData data tags majors p).length - 1 + 1 =
        (filteredData data tags majors).length := by
      rw [fvd_length]; rw [fvd_length] at hpos; omega
    rw [hidx, sumTake_length]
    rfl

/-- Witness for C3 on the spec scenario with threshold 90. -/
theorem c3_rank_and_prefix_sums_witness :
    rankAt (formattedVersionsData scenarioRecords [] [] 90) 2 = 3 ∧
    cumDlAt (formattedVersionsData scenarioRecords [] [] 90) 1 =
      (((formattedVersionsData scenarioRecords [] [] 90).map (·.downloads)).take 2).sum ∧
    cumDlAt (formattedVersionsData scenarioRecords [] [] 90) 0 ≤
      cumDlAt (formattedVersionsData scenarioRecords [] [] 90) 1 ∧
    cumDlAt (formattedVersionsData scenarioRecords [] [] 90)
        ((formattedVersionsData scenarioRecords [] [] 90).length - 1) =
      totalOf (formattedVersionsData scenarioRecords [] [] 90) :=
  ⟨(c3_rank_and_prefix_sums scenarioRecords [] [] 90 _ rfl).1 2 (by decide),
   (c3_rank_and_prefix_sums scenarioRecords [] [] 90 _ rfl).2.1 1 (by decide),
   (c3_rank_and_prefix_sums scenarioRecords [] [] 90 _ rfl).2.2.1 0 (by decide),
   (c3_rank_and_prefix_sums scenarioRecords [] [] 90 _ rfl).2.2.2
     (of_decide_eq_true (by with_unfolding_all rfl))⟩

/-- C6: with positive total downloads and a threshold below 100, exactly
one entry is marked within the threshold by the boundary rule (true flag
with cumulative downloads strictly above the absolute threshold); at
threshold 100 every entry is within and the boundary rule never
applies. -/
theorem c6_boundary_uniqueness (data : List VersionData) (tags majors : List String)
    (p : Nat) (out : List FormattedVersionData)
    (hout : out = formattedVersionsData data tags majors p) :
    (0 < totalOf out → p < 100 →
      ∃ i, i < out.length ∧
        (withinAt out i = true ∧ threshOf out p < (cumDlAt out i : ℚ)) ∧
        ∀ j, j < out.length →
          (withinAt out j = true ∧ threshOf out p < (cumDlAt out j : ℚ)) → j = i) ∧
    (p = 100 → ∀ i, i < out.length →
      withinAt out i = true ∧ ¬(threshOf out p < (cumDlAt out i : ℚ))) := by
  subst hout
  constructor
  · intro hT hp
    rw [totalOf_fvd] at hT
    have hn : 0 < (filteredData data tags majors).length := by
      by_contra h
      have hF : filteredData data tags majors = [] :=
        List.eq_nil_of_length_eq_zero (by omega)
      unfold totalFiltered at hT
      rw [hF] at hT
      simp at hT
    have hth : threshold90Of data tags majors p < (totalFiltered data tags majors : ℚ) := by
      unfold threshold90Of
      have hT1 : (0 : ℚ) < (totalFiltered data tags majors : ℚ) := by exact_mod_cast hT
      have hp1 : ((p : ℚ) / 100) < 1 := by
        rw [div_lt_one (by norm_num : (0 : ℚ) < 100)]
        exact_mod_cast hp
      exact mul_lt_of_lt_one_right hT1 hp1
    have hlastP : threshold90Of data tags majors p <
        (sumTake (filteredData data tags majors)
          ((filteredData data tags majors).length - 1 + 1) : ℚ) := by
      have hidx : (filteredData data tags majors).length - 1 + 1 =
          (filteredData data tags majors).length := by omega
      rw [hidx, sumTake_length]
      exact hth
    have hPex : ∃ j, threshold90Of data tags majors p <
        (sumTake (filteredData data tags majors) (j + 1) : ℚ) :=
      ⟨(filteredData data tags majors).length - 1, hlastP⟩
    refine ⟨Nat.find hPex, ?_, ⟨?_, ?_⟩, ?_⟩
    · rw [fvd_length]
      have := Nat.find_min' hPex hlastP
      omega
    · have hkF : Nat.find hPex < (filteredData data tags majors).length := by
        have := Nat.find_min' hPex hlastP
        omega
      refine (withinAt_iff data tags majors p _ hkF).mpr (Or.inr ?_)
      intro j hj
      have := Nat.find_min hPex hj
      exact not_lt.mp this
    · have hkF : Nat.find hPex < (filteredData data tags majors).length := by
        have := Nat.find_min' hPex hlastP
        omega
      rw [threshOf_fvd, cumDlAt_fvd data tags majors p _ hkF]
      exact Nat.find_spec hPex
    · intro j hjlen hj
      have hjF : j < (filteredData data tags majors).length := by
        rwa [fvd_length] at hjlen
      obtain ⟨hjw, hjgt⟩ := hj
      rw [threshOf_fvd, cumDlAt_fvd data tags majors p j hjF] at hjgt
      have hmin : ∀ m, m < j →
          (sumTake (filteredData data tags majors) (m + 1) : ℚ) ≤
            threshold90Of data tags majors p := by
        rcases (withinAt_iff data tags majors p j hjF).mp hjw with h | h
        · exact absurd h (not_le.mpr hjgt)
        · exact h
      have hk_le : Nat.find hPex ≤ j := Nat.find_min' hPex hjgt
      rcases eq_or_lt_of_le hk_le with h | h
      · omega
      · exact absurd (Nat.find_spec hPex) (not_lt.mpr (hmin _ h))
  · intro hp i hi
    subst hp
    have hiF : i < (filteredData data tags majors).length := by rwa [fvd_length] at hi
    have hth : threshold90Of data tags majors 100 = (totalFiltered data tags majors : ℚ) := by
      unfold threshold90Of
      norm_num
    have hle : (sumTake (filteredData data tags majors) (i + 1) : ℚ) ≤
        (totalFiltered data tags majors : ℚ) := by
      exact_mod_cast sumTake_le_total (filteredData data tags majors) (i + 1)
    constructor
    · exact (withinAt_iff data tags majors 100 i hiF).mpr (Or.inl (by rw [hth]; exact hle))
    · rw [threshOf_fvd, cumDlAt_fvd data tags majors 100 i hiF, hth]
      exact not_lt.mpr hle

/-- Witness for C6: on the spec scenario, threshold 50 has a unique
boundary entry, and threshold 100 includes the last entry with no
boundary overshoot. -/
theorem c6_boundary_uniqueness_witness :
    (∃ i, i < (formattedVersionsData scenarioRecords [] [] 50).length ∧
      (withinAt (formattedVersionsData scenarioRecords [] [] 50) i = true ∧
        threshOf (formattedVersionsData scenarioRecords [] [] 50) 50 <
          (cumDlAt (formattedVersionsData scenarioRecords [] [] 50) i : ℚ)) ∧
      ∀ j, j < (formattedVersionsData scenarioRecords [] [] 50).length →
        (withinAt (formattedVersionsData scenarioRecords [] [] 50) j = true ∧
          threshOf (formattedVersionsData scenarioRecords [] [] 50) 50 <
            (cumDlAt (formattedVersionsData scenarioRecords [] [] 50) j : ℚ)) → j = i) ∧
    (withinAt (formattedVersionsData scenarioRecords [] [] 100) 2 = true ∧
      ¬(threshOf (formattedVersionsData scenarioRecords [] [] 100) 100 <
        (cumDlAt (formattedVersionsData scenarioRecords [] [] 100) 2 : ℚ))) :=
  ⟨(c6_boundary_uniqueness scenarioRecords [] [] 50 _ rfl).1 (by decide) (by decide),
   (c6_boundary_uniqueness scenarioRecords [] [] 100 _ rfl).2 rfl 2 (by decide)⟩

/-- C7: percentages are 0 whenever the total is 0 (never a division
error), and otherwise equal `downloads / totalDownloads * 100` and
`cumulativeDownloads / totalDownloads * 100`. -/
theorem c7_division_guard (data : List VersionData) (tags majors : List String)
    (p : Nat) (out : List FormattedVersionData)
    (hout : out = formattedVersionsData data tags majors p)
    (i : Nat) (hi : i < out.length) :
    (totalOf out = 0 → pctAt out i = 0 ∧ cumPctAt out i = 0) ∧
    (0 < totalOf out →
      pctAt out i = (dlAt out i : ℚ) / (totalOf out : ℚ) * 100 ∧
      cumPctAt out i = (cumDlAt out i : ℚ) / (totalOf out : ℚ) * 100) := by
  subst hout
  have hiF : i < (filteredData data tags majors).length := by rwa [fvd_length] at hi
  rw [totalOf_fvd, pctAt_fvd data tags majors p i hiF, cumPctAt_fvd data tags majors p i hiF,
    dlAt_fvd data tags majors p i hiF, cumDlAt_fvd data tags majors p i hiF]
  constructor
  · intro h
    rw [h]
    norm_num
  · intro h
    rw [if_pos h, if_pos h]
    exact ⟨rfl, rfl⟩

/-- Witness for C7: zero-download records give zero percentages, and the
spec scenario gives the exact share formulas. -/
theorem c7_division_guard_witness :
    (pctAt (formattedVersionsData zeroRecords [] [] 90) 0 = 0 ∧
      cumPctAt (formattedVersionsData zeroRecords [] [] 90) 0 = 0) ∧
    (pctAt (formattedVersionsData scenarioRecords [] [] 90) 1 =
        (dlAt (formattedVersionsData scenarioRecords [] [] 90) 1 : ℚ) /
          (totalOf (formattedVersionsData scenarioRecords [] [] 90) : ℚ) * 100 ∧
      cumPctAt (formattedVersionsData scenarioRecords [] [] 90) 1 =
        (cumDlAt (formattedVersionsData scenarioRecords [] [] 90) 1 : ℚ) /
          (totalOf (formattedVersionsData scenarioRecords [] [] 90) : ℚ) * 100) :=
  ⟨(c7_division_guard zeroRecords [] [] 90 _ rfl 0 (by decide)).1 (by decide),
   (c7_division_guard scenarioRecords [] [] 90 _ rfl 1 (by decide)).2 (by decide)⟩

/-- C9 counterexample: two records with zero downloads each give
`thresholdAbsolute = 0` with a non-empty filtered set, yet the code
marks every entry true (cumulative 0 ≤ 0, the accumulation branch) —
not only the very first, and not via the boundary rule. -/
theorem c9_counterexample :
    totalOf (formattedVersionsData zeroRecords [] [] 90) = 0 ∧
    threshOf (formattedVersionsData zeroRecords [] [] 90) 90 = 0 ∧
    (formattedVersionsData zeroRecords [] [] 90).map (·.isWithin90Threshold) =
      [true, true] ∧
    (formattedVersionsData zeroRecords [] [] 90).map (·.isWithin90Threshold) ≠
      [true, false] :=
  of_decide_eq_true (by with_unfolding_all rfl)

/-- C9 amended: when the total of the filtered set is 0 (hence
`thresholdAbsolute = 0`), every entry — not only the first — is marked
within the threshold, via the accumulation rule (cumulative 0 ≤ 0), and
the boundary rule never applies; with an empty filtered set the output
is empty and the summary is `none` ("no data"). -/
theorem c9_amended_zero_threshold (data : List VersionData) (tags majors : List String)
    (p : Nat) (out : List FormattedVersionData)
    (hout : out = formattedVersionsData data tags majors p) :
    (totalOf out = 0 → ∀ i, i < out.length →
      withinAt out i = true ∧ ¬(threshOf out p < (cumDlAt out i : ℚ))) ∧
    (filteredData data tags majors = [] →
      out = [] ∧ minVersionFor90Threshold data tags majors p = none) := by
  subst hout
  constructor
  · intro hT i hi
    rw [totalOf_fvd] at hT
    have hiF : i < (filteredData data tags majors).length := by rwa [fvd_length] at hi
    have hsum0 : sumTake (filteredData data tags majors) (i + 1) = 0 := by
      have := sumTake_le_total (filteredData data tags majors) (i + 1)
      unfold totalFiltered at hT
      omega
    have hth0 : threshold90Of data tags majors p = 0 := by
      unfold threshold90Of
      rw [hT]
      norm_num
    constructor
    · refine (withinAt_iff data tags majors p i hiF).mpr (Or.inl ?_)
      rw [hsum0, hth0]
      norm_num
    · rw [threshOf_fvd, cumDlAt_fvd data tags majors p i hiF, hsum0, hth0]
      norm_num
  · intro hF
    have hout0 : formattedVersionsData data tags majors p = [] := by
      unfold formattedVersionsData
      rw [hF]
      rfl
    refine ⟨hout0, ?_⟩
    unfold minVersionFor90Threshold
    rw [hout0]
    rfl

/-- Witness for C9 (amended): the zero-download records mark index 1
true without the boundary rule, and the empty record list yields an
empty output and a `none` summary. -/
theorem c9_amended_zero_threshold_witness :
    (withinAt (formattedVersionsData zeroRecords [] [] 90) 1 = true ∧
      ¬(threshOf (formattedVersionsData zeroRecords [] [] 90) 90 <
        (cumDlAt (formattedVersionsData zeroRecords [] [] 90) 1 : ℚ))) ∧
    (formattedVersionsData ([] : List VersionData) [] [] 90 = [] ∧
      minVersionFor90Threshold ([] : List VersionData) [] [] 90 = none) :=
  ⟨(c9_amended_zero_threshold zeroRecords [] [] 90 _ rfl).1 (by decide) 1 (by decide),
   (c9_amended_zero_threshold ([] : List VersionData) [] [] 90 _ rfl).2 rfl⟩

/-- C10: for every non-empty filtered set the entries marked within the
threshold form a non-empty contiguous prefix of the ranked list: the
first entry is always marked true, and an entry is true whenever any
later entry is true (equivalently, after a false entry no entry is
true). -/
theorem c10_prefix_property (data : List VersionData) (tags majors : List String)
    (p : Nat) (out : List FormattedVersionData)
    (hout : out = formattedVersionsData data tags majors p) :
    (out ≠ [] → withinAt out 0 = true) ∧
    (∀ i j, i ≤ j → j < out.length → withinAt out j = true → withinAt out i = true) := by
  subst hout
  constructor
  · intro hne
    have h0 : 0 < (filteredData data tags majors).length := by
      rw [← fvd_length data tags majors p]
      exact List.length_pos.mpr hne
    exact (withinAt_iff data tags majors p 0 h0).mpr
      (Or.inr fun j hj => absurd hj (Nat.not_lt_zero j))
  · intro i j hij hj hwj
    have hjF : j < (filteredData data tags majors).length := by rwa [fvd_length] at hj
    have hiF : i < (filteredData data tags majors).length := lt_of_le_of_lt hij hjF
    rcases (withinAt_iff data tags majors p j hjF).mp hwj with h | h
    · refine (withinAt_iff data tags majors p i hiF).mpr (Or.inl (le_trans ?_ h))
      exact_mod_cast sumTake_le_sumTake _ (by omega)
    · rcases eq_or_lt_of_le hij with rfl | hlt
      · exact hwj
      · exact (withinAt_iff data tags majors p i hiF).mpr (Or.inl (h i hlt))

/-- Witness for C10 on the spec scenario with threshold 50: the first
entry is marked, and monotonicity applied at indices 0 ≤ 2 of the
threshold-90 list. -/
theorem c10_prefix_property_witness :
    withinAt (formattedVersionsData scenarioRecords [] [] 50) 0 = true ∧
    withinAt (formattedVersionsData scenarioRecords [] [] 90) 0 = true :=
  ⟨(c10_prefix_property scenarioRecords [] [] 50 _ rfl).1
     (of_decide_eq_true (by with_unfolding_all rfl)),
   (c10_prefix_property scenarioRecords [] [] 90 _ rfl).2 0 2 (by decide) (by decide)
     (of_decide_eq_true (by with_unfolding_all rfl))⟩

/-! ### Claim theorem: version classification (C8) -/

/-- C8: `classify` maps a version without prerelease identifiers to
`"stable"`; otherwise the first prerelease identifier is matched by
case-sensitive substring in the fixed priority order alpha, beta, rc,
canary, next, dev, snapshot (first match wins) with fallback
`"prerelease"`; unparsable input yields tag `"invalid"` and major
`"unknown"`; parsable input yields major `"v"` followed by the major
number; and the three spec examples evaluate as stated. -/
theorem c8_classify :
    (∀ s p, semverParse s = some p → p.prerelease = [] → parseVersionTag s = "stable") ∧
    (∀ s p, semverParse s = some p → getMajorVersion s = "v" ++ toString p.major) ∧
    (∀ s, semverParse s = none →
      parseVersionTag s = "invalid" ∧ getMajorVersion s = "unknown") ∧
    (∀ s p pre rest, semverParse s = some p → p.prerelease = Sum.inr pre :: rest →
      parseVersionTag s =
        (if strIncludes pre "alpha" then "alpha"
         else if strIncludes pre "beta" then "beta"
         else if strIncludes pre "rc" then "rc"
         else if strIncludes pre "canary" then "canary"
         else if strIncludes pre "next" then "next"
         else if strIncludes pre "dev" then "dev"
         else if strIncludes pre "snapshot" then "snapshot"
         else "prerelease")) ∧
    (parseVersionTag "1.2.3" = "stable" ∧ getMajorVersion "1.2.3" = "v1") ∧
    (parseVersionTag "2.0.0-beta.1" = "beta" ∧ getMajorVersion "2.0.0-beta.1" = "v2") ∧
    (parseVersionTag "not-a-version" = "invalid" ∧
      getMajorVersion "not-a-version" = "unknown") := by
  refine ⟨?_, ?_, ?_, ?_, by decide, by decide, by decide⟩
  · intro s p h hpre
    simp only [parseVersionTag, h, hpre]
  · intro s p h
    simp only [getMajorVersion, h]
  · intro s h
    refine ⟨?_, ?_⟩
    · simp only [parseVersionTag, h]
    · simp only [getMajorVersion, h]
  · intro s p pre rest h hpre
    simp only [parseVersionTag, h, hpre]

/-- Witness for C8: the theorem applied to the three spec examples. -/
theorem c8_classify_witness :
    parseVersionTag "1.2.3" = "stable" ∧
    getMajorVersion "2.0.0-beta.1" = "v" ++ toString (2 : Nat) ∧
    (parseVersionTag "not-a-version" = "invalid" ∧
      getMajorVersion "not-a-version" = "unknown") :=
  ⟨c8_classify.1 "1.2.3" ⟨1, 2, 3, [], []⟩ (by decide) rfl,
   c8_classify.2.1 "2.0.0-beta.1" ⟨2, 0, 0, [Sum.inr "beta", Sum.inl 1], []⟩ (by decide),
   c8_classify.2.2.1 "not-a-version" (by decide)⟩

/-! ### The stable-sort model: permutation, sortedness, stability -/

theorem jsInsert_perm {α : Type} (c : α → α → Int) (x : α) (l : List α) :
    (jsInsert c x l).Perm (x :: l) := by
  induction l with
  | nil => exact List.Perm.refl _
  | cons y ys ih =>
    unfold jsInsert
    by_cases h : c x y < 0
    · rw [if_pos h]
    · rw [if_neg h]
      exact (ih.cons y).trans (List.Perm.swap x y ys)

theorem jsSort_perm {α : Type} (c : α → α → Int) (l : List α) : (jsSort c l).Perm l := by
  suffices h : ∀ (l acc : List α),
      (l.foldl (fun a x => jsInsert c x a) acc).Perm (acc ++ l) by
    simpa using h l []
  intro l
  induction l with
  | nil => intro acc; simp
  | cons x xs ih =>
    intro acc
    simp only [List.foldl_cons]
    refine (ih (jsInsert c x acc)).trans ?_
    refine (((jsInsert_perm c x acc).append_right xs).trans ?_)
    exact List.perm_middle.symm

theorem jsInsert_pairwise {α : Type} {c : α → α → Int} {x : α} {l : List α}
    (ha : ∀ y ∈ l, ¬c x y < 0 → c y x ≤ 0)
    (ht : ∀ y ∈ l, ∀ z ∈ l, c x y < 0 → c y z ≤ 0 → c x z ≤ 0)
    (hp : l.Pairwise fun a b => c a b ≤ 0) :
    (jsInsert c x l).Pairwise fun a b => c a b ≤ 0 := by
  induction l with
  | nil => simp [jsInsert]
  | cons y ys ih =>
    rcases List.pairwise_cons.mp hp with ⟨hy, hys⟩
    unfold jsInsert
    by_cases h : c x y < 0
    · rw [if_pos h]
      refine List.Pairwise.cons ?_ hp
      intro z hz
      rcases List.mem_cons.mp hz with rfl | hz2
      · exact le_of_lt h
      · exact ht y (List.mem_cons_self y ys) z (List.mem_cons_of_mem y hz2) h (hy z hz2)
    · rw [if_neg h]
      refine List.Pairwise.cons ?_
        (ih (fun b hb => ha b (List.mem_cons_of_mem y hb))
          (fun b hb z hz => ht b (List.mem_cons_of_mem y hb) z (List.mem_cons_of_mem y hz))
          hys)
      intro z hz
      rcases List.mem_cons.mp ((jsInsert_perm c x ys).mem_iff.mp hz) with rfl | hz2
      · exact ha y (List.mem_cons_self y ys) h
      · exact hy z hz2

theorem jsSort_pairwise_aux {α : Type} {c : α → α → Int} (u : List α)
    (ha : ∀ x ∈ u, ∀ y ∈ u, ¬c x y < 0 → c y x ≤ 0)
    (ht : ∀ x ∈ u, ∀ y ∈ u, ∀ z ∈ u, c x y < 0 → c y z ≤ 0 → c x z ≤ 0) :
    ∀ (l acc : List α), (∀ a ∈ l, a ∈ u) → (∀ a ∈ acc, a ∈ u) →
      (acc.Pairwise fun a b => c a b ≤ 0) →
      ((l.foldl (fun a x => jsInsert c x a) acc).Pairwise fun a b => c a b ≤ 0) ∧
        ∀ a ∈ l.foldl (fun a x => jsInsert c x a) acc, a ∈ u
  | [], _, _, hacc, hp => ⟨hp, hacc⟩
  | x :: xs, acc, hl, hacc, hp => by
    simp only [List.foldl_cons]
    have hx : x ∈ u := hl x (List.mem_cons_self x xs)
    have hins : (jsInsert c x acc).Pairwise fun a b => c a b ≤ 0 :=
      jsInsert_pairwise (fun y hy hny => ha x hx y (hacc y hy) hny)
        (fun y hy z hz h1 h2 => ht x hx y (hacc y hy) z (hacc z hz) h1 h2) hp
    have hmem : ∀ a ∈ jsInsert c x acc, a ∈ u := by
      intro a hmem2
      rcases List.mem_cons.mp ((jsInsert_perm c x acc).mem_iff.mp hmem2) with rfl | h2
      · exact hx
      · exact hacc a h2
    exact jsSort_pairwise_aux u ha ht xs (jsInsert c x acc)
      (fun a hA => hl a (List.mem_cons_of_mem x hA)) hmem hins

theorem jsSort_pairwise {α : Type} {c : α → α → Int} (l : List α)
    (ha : ∀ x ∈ l, ∀ y ∈ l, ¬c x y < 0 → c y x ≤ 0)
    (ht : ∀ x ∈ l, ∀ y ∈ l, ∀ z ∈ l, c x y < 0 → c y z ≤ 0 → c x z ≤ 0) :
    (jsSort c l).Pairwise fun a b => c a b ≤ 0 :=
  (jsSort_pairwise_aux l ha ht l [] (fun _ h => h) (fun a h => absurd h (List.not_mem_nil a))
    List.Pairwise.nil).1

/-- The download-descending comparator of `fetchPackageData`. -/
def cmpDownloadsDesc (a b : VersionData) : Int :=
  (b.downloads : Int) - (a.downloads : Int)

theorem jsInsertD_filter_ne {x : VersionData} {l : List VersionData} {dl : Nat}
    (hx : x.downloads ≠ dl) :
    (jsInsert cmpDownloadsDesc x l).filter (fun v => v.downloads == dl) =
      l.filter (fun v => v.downloads == dl) := by
  have hxb : (x.downloads == dl) = false := by
    simpa using hx
  induction l with
  | nil =>
    unfold jsInsert
    rw [List.filter_cons]
    simp [hxb]
  | cons y ys ih =>
    unfold jsInsert
    by_cases h : cmpDownloadsDesc x y < 0
    · rw [if_pos h, List.filter_cons, hxb]
      simp
    · rw [if_neg h, List.filter_cons, List.filter_cons, ih]

theorem jsInsertD_filter_eq {x : VersionData} {l : List VersionData} {dl : Nat}
    (hx : x.downloads = dl)
    (hp : l.Pairwise fun a b => b.downloads ≤ a.downloads) :
    (jsInsert cmpDownloadsDesc x l).filter (fun v => v.downloads == dl) =
      l.filter (fun v => v.downloads == dl) ++ [x] := by
  have hxb : (x.downloads == dl) = true := by
    simpa using hx
  induction l with
  | nil =>
    unfold jsInsert
    rw [List.filter_cons]
    simp [hxb]
  | cons y ys ih =>
    rcases List.pairwise_cons.mp hp with ⟨hy, hys⟩
    unfold jsInsert
    by_cases h : cmpDownloadsDesc x y < 0
    · rw [if_pos h]
      have hylt : y.downloads < dl := by
        unfold cmpDownloadsDesc at h
        omega
      have hnone : (y :: ys).filter (fun v => v.downloads == dl) = [] := by
        rw [List.filter_eq_nil_iff]
        intro a hA
        rcases List.mem_cons.mp hA with rfl | hA2
        · simp only [beq_iff_eq]
          omega
        · have := hy a hA2
          simp only [beq_iff_eq]
          omega
      rw [List.filter_cons, hxb, hnone]
      simp
    · rw [if_neg h, List.filter_cons, List.filter_cons, ih hys]
      by_cases hpy : (y.downloads == dl) = true
      · rw [hpy]
        simp
      · rw [Bool.not_eq_true] at hpy
        rw [hpy]
        simp

theorem sortVD_aux (dl : Nat) :
    ∀ (l acc : List VersionData),
      (acc.Pairwise fun a b => cmpDownloadsDesc a b ≤ 0) →
      ((l.foldl (fun a x => jsInsert cmpDownloadsDesc x a) acc).Pairwise
        fun a b => cmpDownloadsDesc a b ≤ 0) ∧
      (l.foldl (fun a x => jsInsert cmpDownloadsDesc x a) acc).filter
          (fun v => v.downloads == dl) =
        acc.filter (fun v => v.downloads == dl) ++ l.filter (fun v => v.downloads == dl)
  | [], acc, hp => ⟨hp, by simp⟩
  | x :: xs, acc, hp => by
    simp only [List.foldl_cons]
    have hins : (jsInsert cmpDownloadsDesc x acc).Pairwise
        fun a b => cmpDownloadsDesc a b ≤ 0 :=
      jsInsert_pairwise
        (fun y _ hny => by unfold cmpDownloadsDesc at *; omega)
        (fun y _ z _ h1 h2 => by unfold cmpDownloadsDesc at *; omega) hp
    have step := sortVD_aux dl xs (jsInsert cmpDownloadsDesc x acc) hins
    refine ⟨step.1, ?_⟩
    rw [step.2, List.filter_cons]
    by_cases hx : x.downloads = dl
    · have hpacc : acc.Pairwise fun a b => b.downloads ≤ a.downloads := by
        refine hp.imp ?_
        intro a b h
        unfold cmpDownloadsDesc at h
        omega
      rw [jsInsertD_filter_eq hx hpacc]
      have hxb : (x.downloads == dl) = true := by simpa using hx
      rw [hxb]
      simp
    · rw [jsInsertD_filter_ne hx]
      have hxb : (x.downloads == dl) = false := by simpa using hx
      rw [hxb]
      simp

theorem filteredData_sublist (d : List VersionData) (tg mj : List String) :
    (filteredData d tg mj).Sublist d := by
  unfold filteredData
  by_cases h1 : tg.length > 0 <;> by_cases h2 : mj.length > 0 <;> simp only [h1, h2, if_pos,
    if_neg, if_true, if_false]
  · exact (List.filter_sublist _).trans (List.filter_sublist _)
  · exact List.filter_sublist _
  · exact List.filter_sublist _
  · exact List.Sublist.refl _

/-- Downloads of the `i`-th record of a raw record list. -/
def dlAtV (l : List VersionData) (i : Nat) : Nat :=
  (l.map (·.downloads)).getD i 0

theorem pairwise_downloads_getD {l : List VersionData}
    (hp : l.Pairwise fun a b => b.downloads ≤ a.downloads) :
    ∀ i, i + 1 < l.length → dlAtV l (i + 1) ≤ dlAtV l i := by
  intro i hi
  have hi0 : i < l.length := by omega
  unfold dlAtV
  rw [getD_map_of_lt _ _ _ _ hi, getD_map_of_lt _ _ _ _ hi0]
  exact List.pairwise_iff_get.mp hp ⟨i, hi0⟩ ⟨i + 1, hi⟩ (by simp)

/-! ### Claim theorem: the download-descending stable sort (C4) -/

/-- C4: `sortVersionsData` (the `.sort((a, b) => b.downloads -
a.downloads)` of `fetchPackageData`) permutes its input into
download-descending order; records with equal downloads keep their
relative input order (the sublist of records at any fixed download count
is unchanged — a stable sort); and the ranked output built from the
sorted records is download-descending as well. -/
theorem c4_sort_stable (l : List VersionData) :
    (sortVersionsData l).Perm l ∧
    (∀ i, i + 1 < (sortVersionsData l).length →
      dlAtV (sortVersionsData l) (i + 1) ≤ dlAtV (sortVersionsData l) i) ∧
    (∀ dl : Nat, (sortVersionsData l).filter (fun v => v.downloads == dl) =
      l.filter (fun v => v.downloads == dl)) ∧
    (∀ tags majors : List String, ∀ p i : Nat,
      i + 1 < (formattedVersionsData (sortVersionsData l) tags majors p).length →
      dlAt (formattedVersionsData (sortVersionsData l) tags majors p) (i + 1) ≤
        dlAt (formattedVersionsData (sortVersionsData l) tags majors p) i) := by
  have hpair : (sortVersionsData l).Pairwise fun a b => b.downloads ≤ a.downloads := by
    have h := jsSort_pairwise (c := cmpDownloadsDesc) l
      (fun x _ y _ hny => by unfold cmpDownloadsDesc at *; omega)
      (fun x _ y _ z _ h1 h2 => by unfold cmpDownloadsDesc at *; omega)
    refine h.imp ?_
    intro a b hab
    unfold cmpDownloadsDesc at hab
    omega
  refine ⟨jsSort_perm _ l, pairwise_downloads_getD hpair, ?_, ?_⟩
  · intro dl
    have := (sortVD_aux dl l [] List.Pairwise.nil).2
    simpa using this
  · intro tags majors p i hi
    have hiF : i + 1 < (filteredData (sortVersionsData l) tags majors).length := by
      rwa [fvd_length] at hi
    have hi0 : i < (filteredData (sortVersionsData l) tags majors).length := by omega
    rw [dlAt_fvd _ _ _ _ _ hiF, dlAt_fvd _ _ _ _ _ hi0]
    have hpF : (filteredData (sortVersionsData l) tags majors).Pairwise
        fun a b => b.downloads ≤ a.downloads :=
      hpair.sublist (filteredData_sublist _ _ _)
    exact List.pairwise_iff_get.mp hpF ⟨i, hi0⟩ ⟨i + 1, hiF⟩ (by simp)

/-- Records with a download tie (1.0.0 and 1.2.0 both at 100) used to
witness stability. -/
def tieRecords : List VersionData :=
  [{ version := "1.0.0", downloads := 100, isLatest := false, tag := "stable",
     publishedDate := "", parsedVersion := semverParse "1.0.0" },
   { version := "1.1.0", downloads := 300, isLatest := false, tag := "stable",
     publishedDate := "", parsedVersion := semverParse "1.1.0" },
   { version := "1.2.0", downloads := 100, isLatest := true, tag := "stable",
     publishedDate := "", parsedVersion := semverParse "1.2.0" }]

/-- Witness for C4 on the tie records. -/
theorem c4_sort_stable_witness :
    (sortVersionsData tieRecords).Perm tieRecords ∧
    dlAtV (sortVersionsData tieRecords) 1 ≤ dlAtV (sortVersionsData tieRecords) 0 ∧
    (sortVersionsData tieRecords).filter (fun v => v.downloads == 100) =
      tieRecords.filter (fun v => v.downloads == 100) ∧
    dlAt (formattedVersionsData (sortVersionsData tieRecords) [] [] 90) 1 ≤
      dlAt (formattedVersionsData (sortVersionsData tieRecords) [] [] 90) 0 :=
  ⟨(c4_sort_stable tieRecords).1,
   (c4_sort_stable tieRecords).2.1 0 (by decide),
   (c4_sort_stable tieRecords).2.2.1 100,
   (c4_sort_stable tieRecords).2.2.2 [] [] 90 0 (by decide)⟩

/-! ### Order theory for the semver comparator

`semverCmp` is an oriented, transitive comparator; the proofs go through
the `Batteries.TransCmp` machinery, with the lexicographic layers
expressed through `compareLex`. -/

theorem cmpOfLt_nat_swap (a b : Nat) : (cmpOfLt a b).swap = cmpOfLt b a := by
  unfold cmpOfLt
  by_cases h1 : a < b
  · have h2 : ¬b < a := by omega
    simp only [if_pos h1, if_neg h2]
    rfl
  · by_cases h2 : b < a
    · simp only [if_neg h1, if_pos h2]
      rfl
    · simp only [if_neg h1, if_neg h2]
      rfl

theorem cmpOfLt_nat_ne_gt {a b : Nat} : cmpOfLt a b ≠ .gt ↔ a ≤ b := by
  unfold cmpOfLt
  by_cases h1 : a < b
  · simp only [if_pos h1]
    exact ⟨fun _ => by omega, fun _ => by decide⟩
  · by_cases h2 : b < a
    · simp only [if_neg h1, if_pos h2]
      exact ⟨fun h => absurd rfl h, fun h => absurd h (by omega)⟩
    · simp only [if_neg h1, if_neg h2]
      exact ⟨fun _ => by omega, fun _ => by decide⟩

theorem cmpOfLt_nat_refl (a : Nat) : cmpOfLt a a = .eq := by
  unfold cmpOfLt
  have h : ¬a < a := by omega
  simp only [if_neg h]

theorem cmpOfLt_str_swap (a b : String) : (cmpOfLt a b).swap = cmpOfLt b a := by
  unfold cmpOfLt
  by_cases h1 : a < b
  · have h2 : ¬b < a := lt_asymm h1
    simp only [if_pos h1, if_neg h2]
    rfl
  · by_cases h2 : b < a
    · simp only [if_neg h1, if_pos h2]
      rfl
    · simp only [if_neg h1, if_neg h2]
      rfl

theorem cmpOfLt_str_ne_gt {a b : String} : cmpOfLt a b ≠ .gt ↔ a ≤ b := by
  unfold cmpOfLt
  by_cases h1 : a < b
  · have h2 : ¬b < a := lt_asymm h1
    simp only [if_pos h1, if_neg h2]
    exact ⟨fun _ => h1.le, fun _ => by decide⟩
  · by_cases h2 : b < a
    · simp only [if_neg h1, if_pos h2]
      exact ⟨fun h => absurd rfl h, fun h => absurd h (not_le.mpr h2)⟩
    · simp only [if_neg h1, if_neg h2]
      exact ⟨fun _ => le_of_not_lt h2, fun _ => by decide⟩

theorem cmpOfLt_str_refl (a : String) : cmpOfLt a a = .eq := by
  unfold cmpOfLt
  have h : ¬a < a := lt_irrefl a
  simp only [if_neg h]

theorem cmpIdent_swap (a b : Nat ⊕ String) : (cmpIdent a b).swap = cmpIdent b a := by
  rcases a with x | x <;> rcases b with y | y
  · exact cmpOfLt_nat_swap x y
  · rfl
  · rfl
  · exact cmpOfLt_str_swap x y

theorem cmpIdent_le_trans {a b c : Nat ⊕ String}
    (h1 : cmpIdent a b ≠ .gt) (h2 : cmpIdent b c ≠ .gt) : cmpIdent a c ≠ .gt := by
  rcases a with x | x <;> rcases b with y | y <;> rcases c with z | z
  · exact cmpOfLt_nat_ne_gt.mpr (le_trans (cmpOfLt_nat_ne_gt.mp h1) (cmpOfLt_nat_ne_gt.mp h2))
  · simp [cmpIdent]
  · exact absurd rfl h2
  · simp [cmpIdent]
  · exact absurd rfl h1
  · exact absurd rfl h1
  · exact absurd rfl h2
  · exact cmpOfLt_str_ne_gt.mpr (le_trans (cmpOfLt_str_ne_gt.mp h1) (cmpOfLt_str_ne_gt.mp h2))

instance : Batteries.TransCmp cmpIdent where
  symm a b := cmpIdent_swap a b
  le_trans h1 h2 := cmpIdent_le_trans h1 h2

theorem cmpIdentList_swap :
    ∀ (a b : List (Nat ⊕ String)), (cmpIdentList a b).swap = cmpIdentList b a
  | [], [] => rfl
  | [], _ :: _ => rfl
  | _ :: _, [] => rfl
  | x :: xs, y :: ys => by
    simp only [cmpIdentList]
    rw [Ordering.swap_then, cmpIdent_swap, cmpIdentList_swap xs ys]

theorem cmpIdentList_le_trans :
    ∀ {a b c : List (Nat ⊕ String)},
      cmpIdentList a b ≠ .gt → cmpIdentList b c ≠ .gt → cmpIdentList a c ≠ .gt
  | [], b, c, _, _ => by
    cases c <;> simp [cmpIdentList]
  | _ :: _, [], _, h1, _ => by
    simp [cmpIdentList] at h1
  | _ :: _, _ :: _, [], _, h2 => by
    simp [cmpIdentList] at h2
  | x :: xs, y :: ys, z :: zs, h1, h2 => by
    simp only [cmpIdentList] at h1 h2 ⊢
    cases e1 : cmpIdent x y with
    | gt => rw [e1] at h1; exact absurd rfl h1
    | lt =>
      cases e2 : cmpIdent y z with
      | gt => rw [e2] at h2; exact absurd rfl h2
      | lt =>
        rw [Batteries.TransCmp.lt_trans e1 e2]
        simp [Ordering.then]
      | eq =>
        rw [← Batteries.TransCmp.cmp_congr_right e2, e1]
        simp [Ordering.then]
    | eq =>
      cases e2 : cmpIdent y z with
      | gt => rw [e2] at h2; exact absurd rfl h2
      | lt =>
        rw [Batteries.TransCmp.cmp_congr_left e1, e2]
        simp [Ordering.then]
      | eq =>
        have hxz : cmpIdent x z = .eq := by
          rw [Batteries.TransCmp.cmp_congr_left e1, e2]
        rw [e1] at h1
        rw [e2] at h2
        simp only [Ordering.then] at h1 h2
        rw [hxz]
        simp only [Ordering.then]
        exact cmpIdentList_le_trans h1 h2

theorem cmpPre_swap (a b : List (Nat ⊕ String)) : (cmpPre a b).swap = cmpPre b a := by
  rcases a with _ | ⟨x, xs⟩ <;> rcases b with _ | ⟨y, ys⟩
  · rfl
  · rfl
  · rfl
  · exact cmpIdentList_swap _ _

theorem cmpPre_le_trans {a b c : List (Nat ⊕ String)}
    (h1 : cmpPre a b ≠ .gt) (h2 : cmpPre b c ≠ .gt) : cmpPre a c ≠ .gt := by
  rcases a with _ | ⟨x, xs⟩ <;> rcases b with _ | ⟨y, ys⟩ <;> rcases c with _ | ⟨z, zs⟩
  · simp [cmpPre]
  · exact absurd rfl h2
  · exact absurd rfl h1
  · exact absurd rfl h1
  · simp [cmpPre]
  · exact absurd rfl h2
  · simp [cmpPre]
  · exact cmpIdentList_le_trans h1 h2

/-- The major component comparator of `semverCmp`. -/
def cmpMajor (a b : SemVer) : Ordering := cmpOfLt a.major b.major

/-- The minor component comparator of `semverCmp`. -/
def cmpMinor (a b : SemVer) : Ordering := cmpOfLt a.minor b.minor

/-- The patch component comparator of `semverCmp`. -/
def cmpPatch (a b : SemVer) : Ordering := cmpOfLt a.patch b.patch

/-- The prerelease component comparator of `semverCmp`. -/
def cmpPreF (a b : SemVer) : Ordering := cmpPre a.prerelease b.prerelease

instance : Batteries.TransCmp cmpMajor where
  symm a b := cmpOfLt_nat_swap a.major b.major
  le_trans h1 h2 :=
    cmpOfLt_nat_ne_gt.mpr (le_trans (cmpOfLt_nat_ne_gt.mp h1) (cmpOfLt_nat_ne_gt.mp h2))

instance : Batteries.TransCmp cmpMinor where
  symm a b := cmpOfLt_nat_swap a.minor b.minor
  le_trans h1 h2 :=
    cmpOfLt_nat_ne_gt.mpr (le_trans (cmpOfLt_nat_ne_gt.mp h1) (cmpOfLt_nat_ne_gt.mp h2))

instance : Batteries.TransCmp cmpPatch where
  symm a b := cmpOfLt_nat_swap a.patch b.patch
  le_trans h1 h2 :=
    cmpOfLt_nat_ne_gt.mpr (le_trans (cmpOfLt_nat_ne_gt.mp h1) (cmpOfLt_nat_ne_gt.mp h2))

instance : Batteries.TransCmp cmpPreF where
  symm a b := cmpPre_swap a.prerelease b.prerelease
  le_trans h1 h2 := cmpPre_le_trans h1 h2

theorem semverCmp_eq_lex :
    semverCmp = compareLex cmpMajor (compareLex cmpMinor (compareLex cmpPatch cmpPreF)) :=
  rfl

instance : Batteries.TransCmp semverCmp := by
  rw [semverCmp_eq_lex]
  infer_instance

theorem ordToInt_lt_zero {o : Ordering} : ordToInt o < 0 ↔ o = .lt := by
  cases o <;> simp [ordToInt]

theorem ordToInt_le_zero {o : Ordering} : ordToInt o ≤ 0 ↔ o ≠ .gt := by
  cases o <;> simp [ordToInt]

theorem specVersionLe_refl (a : FormattedVersionData) : specVersionLe a a = true := by
  unfold specVersionLe
  cases h : semverParse a.version with
  | none =>
    simp only [cmpOfLt_str_refl]
    decide
  | some p =>
    simp only [(Batteries.OrientedCmp.cmp_refl : semverCmp p p = Ordering.eq)]
    decide

theorem cmpOfLt_str_eq_lt {a b : String} : cmpOfLt a b = .lt ↔ a < b := by
  unfold cmpOfLt
  by_cases h1 : a < b
  · simp [h1]
  · by_cases h2 : b < a
    · simp [h1, h2]
    · simp [h1, h2]

/-! ### Grouping by major line: characterisation of `groupByMajor` -/

theorem insertGroup_keys {α : Type} (acc : List (String × List α)) (k : String) (x : α) :
    (insertGroup acc k x).map Prod.fst =
      if k ∈ acc.map Prod.fst then acc.map Prod.fst else acc.map Prod.fst ++ [k] := by
  induction acc with
  | nil => simp [insertGroup]
  | cons g rest ih =>
    rcases g with ⟨k1, xs⟩
    by_cases h : k1 = k
    · subst h
      simp [insertGroup]
    · simp only [insertGroup, if_neg h, List.map_cons]
      rw [ih]
      by_cases hk : k ∈ rest.map Prod.fst
      · rw [if_pos hk, if_pos (List.mem_cons_of_mem _ hk)]
      · rw [if_neg hk, if_neg ?_, List.cons_append]
        intro hmem
        rcases List.mem_cons.mp hmem with heq | hmem2
        · exact h heq.symm
        · exact hk hmem2

theorem insertGroup_mem {α : Type} :
    ∀ (acc : List (String × List α)) (k : String) (x : α),
      ((acc.map Prod.fst).Nodup) →
      ∀ g ∈ insertGroup acc k x,
        (g.1 ≠ k → g ∈ acc) ∧
        (g.1 = k → (∃ old, (k, old) ∈ acc ∧ g.2 = old ++ [x]) ∨
          (k ∉ acc.map Prod.fst ∧ g.2 = [x]))
  | [], k, x, _, g, hg => by
    simp only [insertGroup, List.mem_singleton] at hg
    subst hg
    exact ⟨fun hne => absurd rfl hne, fun _ => Or.inr ⟨by simp, rfl⟩⟩
  | (k1, xs) :: rest, k, x, hnd, g, hg => by
    have hnd1 : k1 ∉ rest.map Prod.fst := by
      simp only [List.map_cons, List.nodup_cons] at hnd
      exact hnd.1
    have hndr : (rest.map Prod.fst).Nodup := by
      simp only [List.map_cons, List.nodup_cons] at hnd
      exact hnd.2
    by_cases h : k1 = k
    · subst h
      rw [show insertGroup ((k1, xs) :: rest) k1 x = (k1, xs ++ [x]) :: rest from by
        simp [insertGroup]] at hg
      rcases List.mem_cons.mp hg with rfl | hg2
      · exact ⟨fun hne => absurd rfl hne,
          fun _ => Or.inl ⟨xs, List.mem_cons_self _ _, rfl⟩⟩
      · refine ⟨fun _ => List.mem_cons_of_mem _ hg2, fun heq => ?_⟩
        exfalso
        apply hnd1
        rw [← heq]
        exact List.mem_map_of_mem Prod.fst hg2
    · rw [show insertGroup ((k1, xs) :: rest) k x = (k1, xs) :: insertGroup rest k x from by
        simp [insertGroup, h]] at hg
      rcases List.mem_cons.mp hg with rfl | hg2
      · exact ⟨fun _ => List.mem_cons_self _ _, fun heq => absurd heq h⟩
      · obtain ⟨hA, hB⟩ := insertGroup_mem rest k x hndr g hg2
        refine ⟨fun hne => List.mem_cons_of_mem _ (hA hne), fun heq => ?_⟩
        rcases hB heq with ⟨old, hold, holdx⟩ | ⟨hnotin, hgx⟩
        · exact Or.inl ⟨old, List.mem_cons_of_mem _ hold, holdx⟩
        · refine Or.inr ⟨?_, hgx⟩
          simp only [List.map_cons, List.mem_cons]
          push_neg
          exact ⟨fun hkk => h hkk.symm, hnotin⟩

theorem groupByMajor_snoc (items : List FormattedVersionData) (x : FormattedVersionData) :
    groupByMajor (items ++ [x]) =
      insertGroup (groupByMajor items) (getMajorVersion x.version) x := by
  unfold groupByMajor
  rw [List.foldl_append]
  rfl

theorem groupByMajor_props (items : List FormattedVersionData) :
    (((groupByMajor items).map Prod.fst).Nodup) ∧
    (∀ g ∈ groupByMajor items,
      g.2 = items.filter (fun e => getMajorVersion e.version = g.1) ∧ g.2 ≠ []) ∧
    (∀ e ∈ items, getMajorVersion e.version ∈ (groupByMajor items).map Prod.fst) := by
  induction items using List.reverseRecOn with
  | nil =>
    refine ⟨by simp [groupByMajor], ?_, by simp⟩
    intro g hg
    simp [groupByMajor, List.foldl_nil] at hg
  | append_singleton items x ih =>
    obtain ⟨hnd, hfil, hcov⟩ := ih
    rw [groupByMajor_snoc]
    refine ⟨?_, ?_, ?_⟩
    · rw [insertGroup_keys]
      by_cases hmem : getMajorVersion x.version ∈ (groupByMajor items).map Prod.fst
      · rw [if_pos hmem]
        exact hnd
      · rw [if_neg hmem]
        rw [List.nodup_append]
        refine ⟨hnd, by simp, ?_⟩
        intro a ha hb
        rcases List.mem_singleton.mp hb with rfl
        exact hmem ha
    · intro g hg
      obtain ⟨hbr1, hbr2⟩ :=
        insertGroup_mem (groupByMajor items) (getMajorVersion x.version) x hnd g hg
      by_cases hgk : g.1 = getMajorVersion x.version
      · rcases hbr2 hgk with ⟨old, hold, hgold⟩ | ⟨hknotin, hgx⟩
        · obtain ⟨hof, hone⟩ := hfil (getMajorVersion x.version, old) hold
          refine ⟨?_, by simp [hgold]⟩
          rw [hgold, List.filter_append]
          have hx1 : [x].filter (fun e => getMajorVersion e.version = g.1) = [x] := by
            simp [hgk]
          rw [hx1, hgk, ← hof]
        · refine ⟨?_, by simp [hgx]⟩
          have hfil0 : items.filter (fun e => getMajorVersion e.version = g.1) = [] := by
            rw [List.filter_eq_nil_iff]
            intro e he hcontra
            apply hknotin
            rw [← hgk]
            have : getMajorVersion e.version = g.1 := by simpa using hcontra
            rw [← this]
            exact hcov e he
          rw [hgx, List.filter_append, hfil0]
          simp [hgk]
      · have hgin : g ∈ groupByMajor items := hbr1 hgk
        obtain ⟨hgf, hgne⟩ := hfil g hgin
        refine ⟨?_, hgne⟩
        rw [List.filter_append, ← hgf]
        have hx0 : [x].filter (fun e => getMajorVersion e.version = g.1) = [] := by
          simp
          intro hcontra
          exact hgk hcontra.symm
        rw [hx0, List.append_nil]
    · intro e he
      rw [insertGroup_keys]
      rcases List.mem_append.mp he with he1 | he2
      · have hin := hcov e he1
        by_cases hmem : getMajorVersion x.version ∈ (groupByMajor items).map Prod.fst
        · rw [if_pos hmem]
          exact hin
        · rw [if_neg hmem]
          exact List.mem_append_left _ hin
      · rcases List.mem_singleton.mp he2 with rfl
        by_cases hmem : getMajorVersion e.version ∈ (groupByMajor items).map Prod.fst
        · rw [if_pos hmem]
          exact hmem
        · rw [if_neg hmem]
          exact List.mem_append_right _ (by simp)

/-! ### Head minimality of the sorted group -/

theorem jsSort_head_some {α : Type} (c : α → α → Int) {l : List α} (hl : l ≠ []) :
    ∃ m, (jsSort c l).head? = some m ∧ m ∈ l := by
  cases hs : jsSort c l with
  | nil =>
    exfalso
    have := (jsSort_perm c l).length_eq
    rw [hs] at this
    exact hl (List.eq_nil_of_length_eq_zero this.symm)
  | cons h t =>
    refine ⟨h, rfl, ?_⟩
    have := (jsSort_perm c l).mem_iff.mp (by rw [hs]; exact List.mem_cons_self h t)
    exact this

theorem jsSort_head_min {α : Type} {c : α → α → Int} {l : List α}
    (hp : (jsSort c l).Pairwise fun a b => c a b ≤ 0) {m : α}
    (hm : (jsSort c l).head? = some m) :
    ∀ y ∈ jsSort c l, y = m ∨ c m y ≤ 0 := by
  cases hs : jsSort c l with
  | nil => simp
  | cons h t =>
    rw [hs] at hm hp
    have hhm : h = m := by simpa using hm
    subst hhm
    intro y hy
    rcases List.mem_cons.mp hy with rfl | hy2
    · exact Or.inl rfl
    · exact Or.inr ((List.pairwise_cons.mp hp).1 y hy2)

/-! ### The group comparator: lawfulness and agreement with the spec
order on each group -/

theorem vappend_ne_unknown (s : String) : "v" ++ s ≠ "unknown" := by
  intro h
  have hdata : ('v' :: s.data) = "unknown".data := congrArg String.data h
  rw [show "unknown".data = ['u', 'n', 'k', 'n', 'o', 'w', 'n'] from rfl] at hdata
  injection hdata with h1 _
  exact absurd h1 (by decide)

theorem getMajorVersion_eq_unknown_iff (v : String) :
    getMajorVersion v = "unknown" ↔ semverParse v = none := by
  unfold getMajorVersion
  cases h : semverParse v with
  | none => simp
  | some p =>
    show ("v" ++ toString p.major) = "unknown" ↔ some p = none
    constructor
    · intro heq
      exact absurd heq (vappend_ne_unknown _)
    · intro heq
      exact absurd heq (by simp)

theorem group_comparator_props {g : List FormattedVersionData} {k : String}
    (hpv : ∀ e ∈ g, e.parsedVersion = semverParse e.version)
    (hkey : ∀ e ∈ g, getMajorVersion e.version = k) :
    (∀ a ∈ g, ∀ b ∈ g, ¬compareVersionItems a b < 0 → compareVersionItems b a ≤ 0) ∧
    (∀ a ∈ g, ∀ b ∈ g, ∀ e ∈ g,
      compareVersionItems a b < 0 → compareVersionItems b e ≤ 0 →
      compareVersionItems a e ≤ 0) ∧
    (∀ a ∈ g, ∀ b ∈ g, compareVersionItems a b ≤ 0 → specVersionLe a b = true) := by
  by_cases hk : k = "unknown"
  · subst hk
    have hnone : ∀ e ∈ g, semverParse e.version = none := by
      intro e he
      exact (getMajorVersion_eq_unknown_iff e.version).mp (hkey e he)
    have hc : ∀ a ∈ g, ∀ b ∈ g,
        compareVersionItems a b = ordToInt (cmpOfLt a.version b.version) := by
      intro a ha b hb
      unfold compareVersionItems
      rw [hpv a ha, hpv b hb, hnone a ha, hnone b hb]
      rfl
    refine ⟨?_, ?_, ?_⟩
    · intro a ha b hb hlt
      rw [hc a ha b hb] at hlt
      rw [hc b hb a ha, ordToInt_le_zero, ← cmpOfLt_str_swap]
      rcases ho : cmpOfLt a.version b.version with _ | _ | _
      · rw [ho] at hlt
        exact absurd (by decide) hlt
      · decide
      · decide
    · intro a ha b hb e he h1 h2
      rw [hc a ha b hb, ordToInt_lt_zero] at h1
      rw [hc b hb e he, ordToInt_le_zero] at h2
      rw [hc a ha e he, ordToInt_le_zero, cmpOfLt_str_ne_gt]
      have hab : a.version < b.version := cmpOfLt_str_eq_lt.mp h1
      have hbe : b.version ≤ e.version := cmpOfLt_str_ne_gt.mp h2
      exact le_trans hab.le hbe
    · intro a ha b hb hle
      rw [hc a ha b hb, ordToInt_le_zero] at hle
      unfold specVersionLe
      rw [hnone a ha, hnone b hb]
      show (cmpOfLt a.version b.version != Ordering.gt) = true
      rcases hx : cmpOfLt a.version b.version with _ | _ | _
      · rfl
      · rfl
      · exact absurd hx hle
  · have hsome : ∀ e ∈ g, ∃ q, semverParse e.version = some q := by
      intro e he
      cases hq : semverParse e.version with
      | none =>
        exfalso
        apply hk
        rw [← hkey e he]
        exact (getMajorVersion_eq_unknown_iff e.version).mpr hq
      | some q => exact ⟨q, rfl⟩
    have hc : ∀ a ∈ g, ∀ b ∈ g, ∀ pa pb,
        semverParse a.version = some pa → semverParse b.version = some pb →
        compareVersionItems a b = ordToInt (semverCmp pa pb) := by
      intro a ha b hb pa pb hpa hpb
      unfold compareVersionItems
      rw [hpv a ha, hpv b hb, hpa, hpb]
      unfold semverCompareStr
      rw [hpa, hpb]
    refine ⟨?_, ?_, ?_⟩
    · intro a ha b hb hlt
      obtain ⟨pa, hpa⟩ := hsome a ha
      obtain ⟨pb, hpb⟩ := hsome b hb
      rw [hc a ha b hb pa pb hpa hpb] at hlt
      rw [hc b hb a ha pb pa hpb hpa, ordToInt_le_zero]
      rw [Batteries.OrientedCmp.cmp_ne_gt]
      rw [ordToInt_lt_zero] at hlt
      exact hlt
    · intro a ha b hb e he h1 h2
      obtain ⟨pa, hpa⟩ := hsome a ha
      obtain ⟨pb, hpb⟩ := hsome b hb
      obtain ⟨pe, hpe⟩ := hsome e he
      rw [hc a ha b hb pa pb hpa hpb, ordToInt_lt_zero] at h1
      rw [hc b hb e he pb pe hpb hpe, ordToInt_le_zero] at h2
      rw [hc a ha e he pa pe hpa hpe, ordToInt_le_zero]
      exact Batteries.TransCmp.le_trans (by rw [h1]; decide) h2
    · intro a ha b hb hle
      obtain ⟨pa, hpa⟩ := hsome a ha
      obtain ⟨pb, hpb⟩ := hsome b hb
      rw [hc a ha b hb pa pb hpa hpb, ordToInt_le_zero] at hle
      unfold specVersionLe
      rw [hpa, hpb]
      show (semverCmp pa pb != Ordering.gt) = true
      rcases hx : semverCmp pa pb with _ | _ | _
      · rfl
      · rfl
      · exact absurd hx hle

theorem fvd_parsedVersion (d : List VersionData) (tg mj : List String) (p : Nat)
    (hpv : ∀ v ∈ d, v.parsedVersion = semverParse v.version) :
    ∀ e ∈ formattedVersionsData d tg mj p, e.parsedVersion = semverParse e.version := by
  intro e he
  obtain ⟨⟨i, hi⟩, rfl⟩ := List.mem_iff_get.mp he
  have hiF : i < (filteredData d tg mj).length := by
    rw [fvd_length] at hi
    exact hi
  rw [fvd_get d tg mj p i hi hiF]
  have hmem : (filteredData d tg mj).get ⟨i, hiF⟩ ∈ d :=
    (filteredData_sublist d tg mj).subset (List.get_mem _ _ _)
  exact hpv _ hmem

/-! ### Claim theorem: the per-major minimum-version summary (C5) -/

/-- C5: when the summary is produced, every reported item selects, from
the group of within-threshold entries sharing its major-line label, a
member that is lowest in the order the spec prescribes (full semver
precedence on parsable versions, plain lexical order among unparsable
ones, parsable before unparsable — on each group only one of the two
sides occurs, since a group is keyed by parse result); every
within-threshold entry's major line is reported; and when every
reported major parses as a number the items are listed in descending
major order.  The hypothesis `hpv` states that each record caches
`semver.parse` of its own version string, as `fetchPackageData`
constructs them. -/
theorem c5_summarize (data : List VersionData) (tags majors : List String) (p : Nat)
    (hpv : ∀ v ∈ data, v.parsedVersion = semverParse v.version)
    (s : ThresholdSummary)
    (hs : minVersionFor90Threshold data tags majors p = some s) :
    (∀ it ∈ s.items, ∃ m, it.minVersion = some m ∧
      m ∈ ((formattedVersionsData data tags majors p).filter
            (fun e => e.isWithin90Threshold)).filter
          (fun e => getMajorVersion e.version = it.major) ∧
      ∀ y ∈ ((formattedVersionsData data tags majors p).filter
            (fun e => e.isWithin90Threshold)).filter
          (fun e => getMajorVersion e.version = it.major),
        specVersionLe m y = true) ∧
    (∀ e ∈ (formattedVersionsData data tags majors p).filter
        (fun e => e.isWithin90Threshold),
      ∃ it ∈ s.items, it.major = getMajorVersion e.version) ∧
    ((∀ it ∈ s.items, (parseIntMajor it.major).isSome) →
      s.items.Pairwise fun a b => ∀ na nb,
        parseIntMajor a.major = some na → parseIntMajor b.major = some nb → nb ≤ na) := by
  have hpvW : ∀ e ∈ (formattedVersionsData data tags majors p).filter
      (fun item => item.isWithin90Threshold), e.parsedVersion = semverParse e.version := by
    intro e he
    exact fvd_parsedVersion data tags majors p hpv e (List.mem_of_mem_filter he)
  obtain ⟨hnd, hfil, hcov⟩ := groupByMajor_props
    ((formattedVersionsData data tags majors p).filter (fun item => item.isWithin90Threshold))
  simp only [minVersionFor90Threshold] at hs
  split at hs
  · exact Option.noConfusion hs
  · rw [Option.some_inj] at hs
    subst hs
    refine ⟨?_, ?_, ?_⟩
    · intro it hit
      have hitm : it ∈ (groupByMajor ((formattedVersionsData data tags majors p).filter
          (fun item => item.isWithin90Threshold))).map (fun g =>
            ({ major := g.1, minVersion := (jsSort compareVersionItems g.2).head?,
               totalVersionsInMajor := g.2.length } : MinVersionItem)) :=
        (jsSort_perm _ _).mem_iff.mp hit
      obtain ⟨g, hgG, rfl⟩ := List.mem_map.mp hitm
      obtain ⟨hgfil, hgne⟩ := hfil g hgG
      obtain ⟨m, hmhead, hmmem⟩ := jsSort_head_some compareVersionItems hgne
      have hpvg : ∀ e ∈ g.2, e.parsedVersion = semverParse e.version := by
        intro e he
        exact hpvW e (by rw [hgfil] at he; exact List.mem_of_mem_filter he)
      have hkeyg : ∀ e ∈ g.2, getMajorVersion e.version = g.1 := by
        intro e he
        rw [hgfil] at he
        have := List.of_mem_filter he
        simpa using this
      obtain ⟨hanti, htrans, hspec⟩ := group_comparator_props hpvg hkeyg
      have hpair : (jsSort compareVersionItems g.2).Pairwise
          fun a b => compareVersionItems a b ≤ 0 :=
        jsSort_pairwise g.2 hanti htrans
      have hmin := jsSort_head_min hpair hmhead
      refine ⟨m, ?_, ?_, ?_⟩
      · exact hmhead
      · simp only []
        rw [← hgfil]
        exact hmmem
      · intro y hy
        simp only [] at hy
        rw [← hgfil] at hy
        have hyj : y ∈ jsSort compareVersionItems g.2 :=
          (jsSort_perm compareVersionItems g.2).mem_iff.mpr hy
        rcases hmin y hyj with rfl | hle
        · exact specVersionLe_refl y
        · exact hspec m hmmem y hy hle
    · intro e he
      have hkey := hcov e he
      obtain ⟨g, hgG, hgkey⟩ := List.mem_map.mp hkey
      refine ⟨{ major := g.1, minVersion := (jsSort compareVersionItems g.2).head?,
                totalVersionsInMajor := g.2.length }, ?_, ?_⟩
      · refine (jsSort_perm _ _).mem_iff.mpr ?_
        exact List.mem_map.mpr ⟨g, hgG, rfl⟩
      · simpa using hgkey
    · intro hallsome
      have hallsome2 : ∀ it ∈ (groupByMajor ((formattedVersionsData data tags majors p).filter
          (fun item => item.isWithin90Threshold))).map (fun g =>
            ({ major := g.1, minVersion := (jsSort compareVersionItems g.2).head?,
               totalVersionsInMajor := g.2.length } : MinVersionItem)),
          (parseIntMajor it.major).isSome := by
        intro it hit
        exact hallsome it ((jsSort_perm _ _).mem_iff.mpr hit)
      have hpair := jsSort_pairwise (c := majorDescCmp)
        ((groupByMajor ((formattedVersionsData data tags majors p).filter
          (fun item => item.isWithin90Threshold))).map (fun g =>
            ({ major := g.1, minVersion := (jsSort compareVersionItems g.2).head?,
               totalVersionsInMajor := g.2.length } : MinVersionItem)))
        (by
          intro x hx y hy hlt
          obtain ⟨nx, hnx⟩ := Option.isSome_iff_exists.mp (hallsome2 x hx)
          obtain ⟨ny, hny⟩ := Option.isSome_iff_exists.mp (hallsome2 y hy)
          unfold majorDescCmp at hlt ⊢
          rw [hnx, hny] at hlt ⊢
          have hlt2 : ¬((ny : Int) - (nx : Int) < 0) := hlt
          show (nx : Int) - (ny : Int) ≤ 0
          omega)
        (by
          intro x hx y hy z hz h1 h2
          obtain ⟨nx, hnx⟩ := Option.isSome_iff_exists.mp (hallsome2 x hx)
          obtain ⟨ny, hny⟩ := Option.isSome_iff_exists.mp (hallsome2 y hy)
          obtain ⟨nz, hnz⟩ := Option.isSome_iff_exists.mp (hallsome2 z hz)
          unfold majorDescCmp at h1 h2 ⊢
          rw [hnx, hny] at h1
          rw [hny, hnz] at h2
          rw [hnx, hnz]
          have h1b : (ny : Int) - (nx : Int) < 0 := h1
          have h2b : (nz : Int) - (ny : Int) ≤ 0 := h2
          show (nz : Int) - (nx : Int) ≤ 0
          omega)
      refine hpair.imp ?_
      intro a b hab na nb hna hnb
      unfold majorDescCmp at hab
      rw [hna, hnb] at hab
      have hab2 : (nb : Int) - (na : Int) ≤ 0 := hab
      omega

/-- The summary the code computes on the spec scenario with threshold
90: all three entries are within the threshold (see the C2 analysis),
grouped as v3 ↦ [3.0.0] and v2 ↦ [2.9.0, 2.8.0] with minimum 2.8.0. -/
def scenarioSummary : ThresholdSummary :=
  { items :=
      [{ major := "v3",
         minVersion := some
           { version := "3.0.0", downloads := 700, isLatest := true, tag := "stable",
             publishedDate := "", parsedVersion := semverParse "3.0.0",
             rank := 1, percentage := 70, cumulativeDownloads := 700,
             cumulativePercentage := 70, isWithin90Threshold := true },
         totalVersionsInMajor := 1 },
       { major := "v2",
         minVersion := some
           { version := "2.8.0", downloads := 100, isLatest := false, tag := "stable",
             publishedDate := "", parsedVersion := semverParse "2.8.0",
             rank := 3, percentage := 10, cumulativeDownloads := 1000,
             cumulativePercentage := 100, isWithin90Threshold := true },
         totalVersionsInMajor := 2 }],
    totalVersions := 3,
    totalDownloads := 1000 }

set_option maxRecDepth 100000 in
/-- Witness for C5 on the spec scenario with threshold 90. -/
theorem c5_summarize_witness :
    minVersionFor90Threshold scenarioRecords [] [] 90 = some scenarioSummary ∧
    ((∀ it ∈ scenarioSummary.items, ∃ m, it.minVersion = some m ∧
      m ∈ ((formattedVersionsData scenarioRecords [] [] 90).filter
            (fun e => e.isWithin90Threshold)).filter
          (fun e => getMajorVersion e.version = it.major) ∧
      ∀ y ∈ ((formattedVersionsData scenarioRecords [] [] 90).filter
            (fun e => e.isWithin90Threshold)).filter
          (fun e => getMajorVersion e.version = it.major),
        specVersionLe m y = true) ∧
    (∀ e ∈ (formattedVersionsData scenarioRecords [] [] 90).filter
        (fun e => e.isWithin90Threshold),
      ∃ it ∈ scenarioSummary.items, it.major = getMajorVersion e.version) ∧
    ((∀ it ∈ scenarioSummary.items, (parseIntMajor it.major).isSome) →
      scenarioSummary.items.Pairwise fun a b => ∀ na nb,
        parseIntMajor a.major = some na → parseIntMajor b.major = some nb → nb ≤ na)) := by
  have hEq : minVersionFor90Threshold scenarioRecords [] [] 90 = some scenarioSummary :=
    of_decide_eq_true (by with_unfolding_all rfl)
  exact ⟨hEq, c5_summarize scenarioRecords [] [] 90 (by decide) scenarioSummary hEq⟩

end NpmVersionStat
